import Mathlib

/-!
# RandomIntsStDevAPI: the `/mean` handler of `random.go`

A shallow embedding of `random.go` (the fetcher `requestRandomInts`, the parameter
check `validateParam` and the handler `Get`) together with the parts of its
environment that the handler's result depends on:

* binary64 arithmetic (`F64`): round-to-nearest-even with 53 significant bits and an
  unbounded exponent range, plus NaN, every operation rounded on its own.
  `F64.round_nearest` and `F64.sqrt_nearest` prove the rounding and the square root
  correct, `F64.add_eq_rn`, `F64.sub_eq_rn`, `F64.mul_eq_rn` and `F64.div_eq_rn` that
  each operation returns the rounded exact result, and `F64.known_values` checks some
  well-known results;
* the conversion `int(x)` of a `float64`, whose result for NaN and for values out of
  range depends on the compilation target (`Target`);
* the functions of `github.com/montanaflynn/stats` the handler calls
  (`LoadRawData`, `Sum`, `Mean`, `PopulationVariance`, `StandardDeviation`, `Round`);
* the function `strconv.Atoi`;
* the goroutines of the fan-out, as a step function driven by an arbitrary schedule
  (`step`, `runWorkers`), and the join `wg.Wait()` (`Shared.allDone`).

The statistics are also defined exactly, over the rationals (`exactVariance`,
`ExactStdDev3`), to compare what the handler stores with the exact standard deviation.

The definitions come first, the proofs follow; the statements about the handler that
the specification makes are at the end, under "The claims".
-/

namespace RandomInts

/-! ## binary64 values -/

/-- A binary64 value: NaN, or the finite number `m * 2 ^ e`.  Values produced by the
operations below are in normal form: `m = 0 ∧ e = 0`, or `2 ^ 52 ≤ |m| < 2 ^ 53`.
Infinities, signed zero and subnormals are left out (exponents are unbounded). -/
inductive F64 where
  | nan
  | fin (m : Int) (e : Int)
deriving DecidableEq, Repr

namespace F64

/-- The quotient `n / d` rounded to the nearest natural number, ties to even. -/
def divNearestEven (n d : Nat) : Nat :=
  let q := n / d
  let r := n % d
  if 2 * r < d then q
  else if d < 2 * r then q + 1
  else if q % 2 = 0 then q else q + 1

/-- Numerator and denominator of `N / D * 2 ^ s`. -/
def scale (N D : Nat) (s : Int) : Nat × Nat :=
  if 0 ≤ s then (N * 2 ^ s.toNat, D) else (N, D * 2 ^ (-s).toNat)

/-- Halving loop of `log2`. -/
def log2Loop : Nat → Nat → Nat → Nat
  | 0, _, acc => acc
  | fuel + 1, n, acc => if 2 ≤ n then log2Loop fuel (n / 2) (acc + 1) else acc

/-- Position of the leading binary digit: `2 ^ log2 n ≤ n < 2 ^ (log2 n + 1)` for
`n > 0`. -/
def log2 (n : Nat) : Nat := log2Loop n n 0

/-- The shift `s` with `2 ^ 52 ≤ N / D * 2 ^ s < 2 ^ 53` (for `N, D > 0`). -/
def shiftFor (N D : Nat) : Int :=
  let s0 : Int := 52 + (log2 D : Int) - (log2 N : Int)
  if 2 ^ 52 * (scale N D s0).2 ≤ (scale N D s0).1 then s0 else s0 + 1

/-- Normal form of a magnitude `q * 2 ^ e` with `2 ^ 52 ≤ q ≤ 2 ^ 53`, signed. -/
def pack (neg : Bool) (q : Nat) (e : Int) : F64 :=
  let qe : Nat × Int := if q = 2 ^ 53 then (2 ^ 52, e + 1) else (q, e)
  fin (if neg then -(qe.1 : Int) else (qe.1 : Int)) qe.2

/-- Round-to-nearest-even of `± N / D * 2 ^ e` to 53 significant bits (`D > 0`). -/
def round (neg : Bool) (N D : Nat) (e : Int) : F64 :=
  if N = 0 then fin 0 0
  else
    let s := shiftFor N D
    pack neg (divNearestEven (scale N D s).1 (scale N D s).2) (e - s)

/-- The dyadic number `M * 2 ^ e`, rounded. -/
def ofDyadic (M : Int) (e : Int) : F64 :=
  round (decide (M < 0)) M.natAbs 1 e

/-- Go's conversion `float64(n)` of an integer. -/
def ofInt (n : Int) : F64 := ofDyadic n 0

/-- The binary64 value nearest to the fraction `n / d`: what the decimal literal
`n / d` denotes (`ofQuot 816 1000` is `0.816`). -/
def ofQuot (n : Int) (d : Nat) : F64 := round (decide (n < 0)) n.natAbs d 0

/-- Positive zero. -/
def zero : F64 := fin 0 0

/-- The test `math.IsNaN`. -/
def isNaN : F64 → Bool
  | nan => true
  | fin _ _ => false

/-- Mantissas of two finite values over their common (smaller) exponent. -/
def align (m1 e1 m2 e2 : Int) : Int × Int × Int :=
  let e := min e1 e2
  (m1 * 2 ^ (e1 - e).toNat, m2 * 2 ^ (e2 - e).toNat, e)

/-- Addition `x + y`. -/
def add : F64 → F64 → F64
  | fin m1 e1, fin m2 e2 =>
    let a := align m1 e1 m2 e2
    ofDyadic (a.1 + a.2.1) a.2.2
  | _, _ => nan

/-- Subtraction `x - y`. -/
def sub : F64 → F64 → F64
  | fin m1 e1, fin m2 e2 =>
    let a := align m1 e1 m2 e2
    ofDyadic (a.1 - a.2.1) a.2.2
  | _, _ => nan

/-- Multiplication `x * y`. -/
def mul : F64 → F64 → F64
  | fin m1 e1, fin m2 e2 => ofDyadic (m1 * m2) (e1 + e2)
  | _, _ => nan

/-- Division `x / y`.  A zero divisor would give an infinity or NaN; infinities are
not part of this model, and the handler never divides by zero. -/
def div : F64 → F64 → F64
  | fin m1 e1, fin m2 e2 =>
    if m2 = 0 then nan
    else round (decide (m1 < 0) != decide (m2 < 0)) m1.natAbs m2.natAbs (e1 - e2)
  | _, _ => nan

/-- Negation. -/
def neg : F64 → F64
  | fin m e => fin (-m) e
  | nan => nan

/-- The comparison `x < y` (false when either side is NaN). -/
def lt : F64 → F64 → Bool
  | fin m1 e1, fin m2 e2 =>
    let a := align m1 e1 m2 e2
    decide (a.1 < a.2.1)
  | _, _ => false

/-- The comparison `x >= y` (false when either side is NaN). -/
def ge : F64 → F64 → Bool
  | fin m1 e1, fin m2 e2 =>
    let a := align m1 e1 m2 e2
    decide (a.2.1 ≤ a.1)
  | _, _ => false

/-- Bit-by-bit integer square root: the largest `r` below `2 ^ bits` with `r * r ≤ X`,
starting from the accumulated high bits `r`. -/
def isqrtLoop : Nat → Nat → Nat → Nat
  | 0, _, r => r
  | b + 1, X, r =>
    if (r + 2 ^ b) * (r + 2 ^ b) ≤ X then isqrtLoop b X (r + 2 ^ b) else isqrtLoop b X r

/-- The function `math.Sqrt`, correctly rounded.  For `m * 2 ^ e` with
`2 ^ 52 ≤ m < 2 ^ 53` the radicand is rescaled to `X = m * 2 ^ u` with `e - u` even and
`2 ^ 104 ≤ X < 2 ^ 106`; with `r = ⌊√X⌋` the result is `r` or `r + 1` (the latter when
`X > (r + 1/2)²`, that is `X > r² + r`) times `2 ^ ((e - u) / 2)`. -/
def sqrt : F64 → F64
  | nan => nan
  | fin m e =>
    if m < 0 then nan
    else if m = 0 then fin 0 0
    else
      let u : Nat := if (e - 52) % 2 = 0 then 52 else 53
      let X : Nat := m.natAbs * 2 ^ u
      let r := isqrtLoop 53 X 0
      let q := if r * r + r < X then r + 1 else r
      pack false q ((e - u) / 2)

/-- The integer part of a finite value, rounded toward minus infinity. -/
def floorInt (m e : Int) : Int :=
  if 0 ≤ e then m * 2 ^ e.toNat else m / 2 ^ (-e).toNat

/-- The function `math.Floor`. -/
def floor : F64 → F64
  | nan => nan
  | fin m e => ofInt (floorInt m e)

/-- The function `math.Ceil`, which Go computes as `-Floor(-x)`. -/
def ceil (x : F64) : F64 := neg (floor (neg x))

/-- The function `math.Trunc`: the integer part, rounded toward zero. -/
def trunc : F64 → F64
  | nan => nan
  | fin m e => if m < 0 then neg (floor (fin (-m) e)) else floor (fin m e)

/-- The function `math.Modf`: integer part and fractional part, both with the sign of
the argument. -/
def modf (x : F64) : F64 × F64 := (trunc x, sub x (trunc x))

/-- The integer part of a finite value, rounded toward zero. -/
def truncInt (m e : Int) : Int :=
  if m < 0 then -floorInt (-m) e else floorInt m e

end F64

/-- What the conversion `int(x)` of a `float64` yields when `x` has no `int` value
(`int` is the 64-bit one).  The Go specification leaves the result
implementation-dependent; it is a property of the compilation target. -/
structure Target where
  /-- The value of `int(NaN)`. -/
  ofNaN : Int
  /-- The value of `int(x)` for `x ≥ 2 ^ 63`. -/
  ofAbove : Int
  /-- The value of `int(x)` for `x < -2 ^ 63`. -/
  ofBelow : Int
deriving DecidableEq, Repr

/-- On amd64 the conversion instruction yields the "integer indefinite" value
`-2 ^ 63` for every input without an `int64` value. -/
def amd64 : Target := ⟨-2 ^ 63, -2 ^ 63, -2 ^ 63⟩

/-- On arm64 the conversion instruction yields 0 for NaN and saturates otherwise. -/
def arm64 : Target := ⟨0, 2 ^ 63 - 1, -2 ^ 63⟩

/-- Go's conversion `int(x)` of a `float64` (64-bit `int`): truncation toward zero. -/
def toInt (t : Target) : F64 → Int
  | F64.nan => t.ofNaN
  | F64.fin m e =>
    let z := F64.truncInt m e
    if z < -2 ^ 63 then t.ofBelow else if 2 ^ 63 ≤ z then t.ofAbove else z

/-! ## `github.com/montanaflynn/stats`

The handler calls this library and discards every error it returns, so each function
is modelled with both of its results, as in Go. -/

namespace stats

/-- The library's error values that these functions return. -/
inductive Err where
  | EmptyInputErr
  | NaNErr
deriving DecidableEq, Repr

/-- The slice type `stats.Float64Data`. -/
abbrev Float64Data := List F64

/-- Library function `LoadRawData` on a `[]int`: each element is converted with
`float64(v)`. -/
def LoadRawData (raw : List Int) : Float64Data := raw.map F64.ofInt

/-- Library function `Sum` (sum.go): NaN and `EmptyInputErr` on empty input, else the
running sum from `0`. -/
def Sum (input : Float64Data) : F64 × Option Err :=
  if input.length = 0 then (F64.nan, some Err.EmptyInputErr)
  else (input.foldl (fun sum n => F64.add sum n) F64.zero, none)

/-- Library function `Mean` (mean.go): `sum / float64(len)`. -/
def Mean (input : Float64Data) : F64 × Option Err :=
  if input.length = 0 then (F64.nan, some Err.EmptyInputErr)
  else (F64.div (Sum input).1 (F64.ofInt input.length), none)

/-- Library function `_variance` (variance.go): the squared differences from the mean
are accumulated and divided by `len - 1 * sample`.  The update
`variance += (n - m) * (n - m)` is a multiplication followed by an addition, each
rounded on its own, as on amd64; a target for which the Go compiler fuses the two into
one operation (arm64) may round the sum differently. -/
def _variance (input : Float64Data) (sample : Int) : F64 × Option Err :=
  if input.length = 0 then (F64.nan, some Err.EmptyInputErr)
  else
    let m := (Mean input).1
    let acc := input.foldl
      (fun variance n => F64.add variance (F64.mul (F64.sub n m) (F64.sub n m))) F64.zero
    (F64.div acc (F64.ofInt ((input.length : Int) - 1 * sample)), none)

/-- Library function `PopulationVariance` (variance.go): `_variance(input, 0)`. -/
def PopulationVariance (input : Float64Data) : F64 × Option Err :=
  match _variance input 0 with
  | (_, some err) => (F64.nan, some err)
  | (v, none) => (v, none)

/-- Library function `StandardDeviationPopulation` (deviation.go). -/
def StandardDeviationPopulation (input : Float64Data) : F64 × Option Err :=
  if input.length = 0 then (F64.nan, some Err.EmptyInputErr)
  else (F64.sqrt (PopulationVariance input).1, none)

/-- Library function `StandardDeviation` (deviation.go) is the population standard
deviation. -/
def StandardDeviation (input : Float64Data) : F64 × Option Err :=
  StandardDeviationPopulation input

/-- The value `math.Pow(10, float64(places))` for a small natural `places`: powers of
ten up to `10 ^ 22` are binary64 values and `math.Pow` returns them exactly. -/
def pow10 (places : Nat) : F64 := F64.ofInt (10 ^ places)

/-- Library function `Round` (round.go): the sign is split off, the magnitude is scaled
by `10 ^ places`, rounded up when its fractional part is at least one half and down
otherwise, and scaled back. -/
def Round (input : F64) (places : Nat) : F64 × Option Err :=
  if input.isNaN then (F64.nan, some Err.NaNErr)
  else
    let neg := F64.lt input F64.zero
    let sign := if neg then F64.ofInt (-1) else F64.ofInt 1
    let input := if neg then F64.mul input (F64.ofInt (-1)) else input
    let precision := pow10 places
    let digit := F64.mul input precision
    let decimal := (F64.modf digit).2
    let rounded := if F64.ge decimal (F64.ofQuot 1 2) then F64.ceil digit else F64.floor digit
    (F64.mul (F64.div rounded precision) sign, none)

end stats

/-! ## `strconv.Atoi` -/

/-- The function `strconv.Atoi` on a 64-bit target: an optional sign followed by one or
more decimal digits whose value is an `int64`; `none` stands for a returned error
(syntax or range). -/
def Atoi (s : String) : Option Int :=
  let cs := s.toList
  let ds := match cs with
    | '-' :: r => r
    | '+' :: r => r
    | _ => cs
  if ds.isEmpty || !ds.all Char.isDigit then none
  else
    let n : Nat := ds.foldl (fun n ch => n * 10 + (ch.toNat - 48)) 0
    let v : Int := if cs.head? = some '-' then -(n : Int) else (n : Int)
    if v < -2 ^ 63 ∨ 2 ^ 63 ≤ v then none else some v

/-! ## `random.go` -/

/-- The struct `randomAPIResultData`. -/
structure randomAPIResultData where
  Data : List Int
deriving DecidableEq, Repr

/-- The struct `randomAPIResult`. -/
structure randomAPIResult where
  Random : randomAPIResultData
deriving DecidableEq, Repr

/-- The struct `randomAPIError`. -/
structure randomAPIError where
  Message : String
deriving DecidableEq, Repr

/-- The struct `randomAPIResponse`; the two pointer fields are `nil` (`none`) when the
body has no such member. -/
structure randomAPIResponse where
  Result : Option randomAPIResult
  Error : Option randomAPIError
  ID : Int
deriving DecidableEq, Repr

/-- The struct `FinalResult`.  Go slices are lists here (a `nil` slice is the empty list). -/
structure FinalResult where
  Numbers : List (List Int)
  StdDevs : List F64
  StdDevOfStdDevs : F64
deriving DecidableEq, Repr

/-- What the upstream service answers to one call of `requestRandomInts`: the outcome
of `httpClient.Do` followed by the JSON decoding of the body. -/
inductive Upstream where
  /-- The call `httpClient.Do` returns an error (no connection, timeout, ...). -/
  | transportError (msg : String)
  /-- The decoder returns an error. -/
  | undecodable (msg : String)
  /-- The body decodes to this value. -/
  | decoded (result : randomAPIResponse)
deriving DecidableEq, Repr

/-- How a Go call ends: it returns, or it panics. -/
inductive Call (α : Type) where
  | returns (a : α)
  | panics
deriving DecidableEq, Repr

/-- The two results `(intSeq, err)` of `requestRandomInts`: on every path either `err`
is `nil` (`ok intSeq`) or `intSeq` is `nil` and `err` is set (`error msg`). -/
abbrev Fetched := Except String (List Int)

/-- The function `requestRandomInts` (random.go 77-116).  Building the request cannot
fail (the payload is a plain struct and the URL a constant); the rest is decided by the
upstream answer.  `result.Result.Random.Data` dereferences `result.Result`, which is
`nil` when the body has no `result` member. -/
def requestRandomInts (_intSeqLength : Int) (up : Upstream) : Call Fetched :=
  match up with
  | Upstream.transportError msg => Call.returns (Except.error msg)
  | Upstream.undecodable msg => Call.returns (Except.error msg)
  | Upstream.decoded result =>
    match result.Error with
    | some err => Call.returns (Except.error err.Message)
    | none =>
      match result.Result with
      | none => Call.panics
      | some res => Call.returns (Except.ok res.Random.Data)

/-- The method `validateParam` (random.go 118-127); `none` is the `nil` error. -/
def validateParam (paramName : String) (numericParam : Int) (maxVal : Int) : Option String :=
  if numericParam ≤ 0 then
    some (paramName ++ " param has to be greater than 0")
  else if numericParam > maxVal then
    some (paramName ++ " param has to be smaller than or equal to " ++ toString maxVal)
  else none

/-- The rounded standard deviation a worker stores (random.go 183-185). -/
def roundedStdDev (intSeq : List Int) : F64 :=
  (stats.Round (stats.StandardDeviation (stats.LoadRawData intSeq)).1 3).1

/-- Where a worker goroutine (random.go 173-187) stands. -/
inductive Pc where
  /-- About to call `requestRandomInts` (line 176). -/
  | fetch
  /-- About to execute `intSeqs[i] = intSeq` (line 181). -/
  | storeSeq (intSeq : List Int)
  /-- About to execute `stdDevsInSeqs[i] = roundedStdDev` (line 186). -/
  | storeStdDev (intSeq : List Int)
  /-- Returned; `wg.Done()` has run. -/
  | done
deriving DecidableEq, Repr

/-- The memory the goroutines share. -/
structure Shared where
  intSeqs : List (List Int)
  stdDevsInSeqs : List F64
  /-- The program counter of each worker. -/
  pcs : List Pc
  /-- A worker panicked: the panic is not recovered and ends the process. -/
  panicked : Bool
  /-- The number of calls of `requestRandomInts` so far. -/
  fetchCalls : Nat
deriving DecidableEq, Repr

/-- The state after lines 167-171: `make` fills both slices with zero values
(`nil` sequences, `0` deviations), and no worker has run. -/
def Shared.init (nrOfRequests : Nat) : Shared :=
  { intSeqs := List.replicate nrOfRequests []
    stdDevsInSeqs := List.replicate nrOfRequests F64.zero
    pcs := List.replicate nrOfRequests Pc.fetch
    panicked := false
    fetchCalls := 0 }

/-- One atomic step of worker `i`, where `fetcher i` is how this worker's call of
`requestRandomInts` ends.  A finished or unknown worker, or any worker after a panic,
does nothing. -/
def step (fetcher : Nat → Call Fetched) (sh : Shared) (i : Nat) : Shared :=
  if sh.panicked then sh
  else
    match sh.pcs[i]? with
    | none => sh
    | some Pc.fetch =>
      match fetcher i with
      | Call.panics => { sh with panicked := true, fetchCalls := sh.fetchCalls + 1 }
      | Call.returns (Except.error _) =>
        { sh with pcs := sh.pcs.set i Pc.done, fetchCalls := sh.fetchCalls + 1 }
      | Call.returns (Except.ok intSeq) =>
        { sh with pcs := sh.pcs.set i (Pc.storeSeq intSeq), fetchCalls := sh.fetchCalls + 1 }
    | some (Pc.storeSeq intSeq) =>
      { sh with intSeqs := sh.intSeqs.set i intSeq, pcs := sh.pcs.set i (Pc.storeStdDev intSeq) }
    | some (Pc.storeStdDev intSeq) =>
      { sh with stdDevsInSeqs := sh.stdDevsInSeqs.set i (roundedStdDev intSeq),
                pcs := sh.pcs.set i Pc.done }
    | some Pc.done => sh

/-- The workers run as the scheduler picks them: `sched` lists the worker that takes
each successive step. -/
def runWorkers (fetcher : Nat → Call Fetched) (nrOfRequests : Nat) (sched : List Nat) : Shared :=
  sched.foldl (step fetcher) (Shared.init nrOfRequests)

/-- The call `wg.Wait()` returns once every worker has called `wg.Done()`. -/
def Shared.allDone (sh : Shared) : Bool := sh.pcs.all (fun pc => decide (pc = Pc.done))

/-- Lines 194-199: the slice `intSeqsSums`, holding `int(seqSum)` for the `Sum` of
each sequence. -/
def intSeqsSums (t : Target) (intSeqs : List (List Int)) : List Int :=
  intSeqs.map (fun seq => toInt t (stats.Sum (stats.LoadRawData seq)).1)

/-- Lines 200-209: the rounded standard deviation of the sums, and the assembled
`FinalResult`. -/
def finalResult (t : Target) (intSeqs : List (List Int)) (stdDevsInSeqs : List F64) :
    FinalResult :=
  let data := stats.LoadRawData (intSeqsSums t intSeqs)
  let stdDevOfSums := (stats.StandardDeviation data).1
  let roundedStdDevOfSums := (stats.Round stdDevOfSums 3).1
  { Numbers := intSeqs
    StdDevs := stdDevsInSeqs
    StdDevOfStdDevs := roundedStdDevOfSums }

/-- Package `encoding/json` refuses a `float64` that is NaN (`UnsupportedValueError`);
every other value of a `FinalResult` encodes. -/
def encodes (r : FinalResult) : Bool :=
  r.StdDevs.all (fun x => !x.isNaN) && !r.StdDevOfStdDevs.isNaN

/-- What the handler writes. -/
inductive Response where
  /-- The call `http.Error(w, msg, code)`. -/
  | httpError (msg : String) (code : Nat)
  /-- Status 200 with the JSON encoding of the result. -/
  | json (body : FinalResult)
deriving DecidableEq, Repr

/-- How a run of `Get` ends. -/
inductive Outcome where
  /-- The handler `Get` returns after writing `resp`, having called the fetcher
  `fetchCalls` times. -/
  | responds (resp : Response) (fetchCalls : Nat)
  /-- A worker panicked. -/
  | crashes
  /-- The schedule ends with `wg.Wait()` still waiting for some worker. -/
  | waits
deriving DecidableEq, Repr

/-- The `FinalResult` that lines 167-209 build when the workers run under `sched`. -/
def buildResult (t : Target) (fetcher : Nat → Call Fetched) (nrOfRequests : Nat)
    (sched : List Nat) : FinalResult :=
  finalResult t (runWorkers fetcher nrOfRequests sched).intSeqs
    (runWorkers fetcher nrOfRequests sched).stdDevsInSeqs

/-- Lines 167-215 of `Get`, for validated parameters: the fan-out under the schedule
`sched`, the join, the statistics and the response. -/
def aggregate (t : Target) (fetcher : Nat → Call Fetched) (nrOfRequests : Nat)
    (sched : List Nat) : Outcome :=
  let sh := runWorkers fetcher nrOfRequests sched
  if sh.panicked then Outcome.crashes
  else if !sh.allDone then Outcome.waits
  else
    let result := buildResult t fetcher nrOfRequests sched
    if encodes result then Outcome.responds (Response.json result) sh.fetchCalls
    else Outcome.responds (Response.httpError "json: unsupported value: NaN" 500) sh.fetchCalls

/-- Lines 136-138 and 151-153: an empty parameter reads as `"1"`. -/
def orDefault (param : String) : String := if param = "" then "1" else param

/-- The handler `Get` (random.go 130-215).  `requests` and `length` are the two context
values (the raw query parameters), `upstream i` is the upstream answer to the call made
by worker `i`, and `sched` is the order in which the scheduler runs the workers. -/
def Get (t : Target) (requests length : String) (upstream : Nat → Upstream)
    (sched : List Nat) : Outcome :=
  let nrOfRequestsStr := orDefault requests
  match Atoi nrOfRequestsStr with
  | none => Outcome.responds (Response.httpError "requests param has to be an integer" 500) 0
  | some nrOfRequests =>
    match validateParam "nrOfRequests" nrOfRequests 10 with
    | some err => Outcome.responds (Response.httpError err 500) 0
    | none =>
      let intSeqLengthStr := orDefault length
      match Atoi intSeqLengthStr with
      | none => Outcome.responds (Response.httpError "length param has to be an integer" 500) 0
      | some intSeqLength =>
        match validateParam "intSeqLength" intSeqLength 1000 with
        | some err => Outcome.responds (Response.httpError err 500) 0
        | none =>
          aggregate t (fun i => requestRandomInts intSeqLength (upstream i))
            nrOfRequests.toNat sched

/-- A schedule that gives every worker the three steps it needs at most. -/
def Fair (nrOfRequests : Nat) (sched : List Nat) : Prop :=
  ∀ i, i < nrOfRequests → 3 ≤ sched.count i

/-! ## The state of the fan-out as a function of the steps taken -/

/-- Program counter of a worker whose fetch ends with `r`, after `k` of its steps. -/
def pcAfter (r : Fetched) (k : Nat) : Pc :=
  match r, k with
  | _, 0 => Pc.fetch
  | Except.error _, _ + 1 => Pc.done
  | Except.ok s, 1 => Pc.storeSeq s
  | Except.ok s, 2 => Pc.storeStdDev s
  | Except.ok _, _ + 3 => Pc.done

/-- Slot `intSeqs[i]` after `k` steps of worker `i`. -/
def seqAfter (r : Fetched) (k : Nat) : List Int :=
  match r with
  | Except.ok s => if 2 ≤ k then s else []
  | Except.error _ => []

/-- Slot `stdDevsInSeqs[i]` after `k` steps of worker `i`. -/
def sdAfter (r : Fetched) (k : Nat) : F64 :=
  match r with
  | Except.ok s => if 3 ≤ k then roundedStdDev s else F64.zero
  | Except.error _ => F64.zero

/-- The shared state in which worker `i` has taken `c i` steps. -/
def stateAt (r : Nat → Fetched) (n : Nat) (c : Nat → Nat) : Shared :=
  { intSeqs := (List.range n).map (fun i => seqAfter (r i) (c i))
    stdDevsInSeqs := (List.range n).map (fun i => sdAfter (r i) (c i))
    pcs := (List.range n).map (fun i => pcAfter (r i) (c i))
    panicked := false
    fetchCalls := (List.range n).countP (fun i => decide (c i ≠ 0)) }

/-- One more step for worker `j`. -/
def bump (c : Nat → Nat) (j : Nat) : Nat → Nat := fun i => if i = j then c i + 1 else c i

/-- The slot `intSeqs[i]` once worker `i` has returned. -/
def seqSlot (r : Fetched) : List Int :=
  match r with
  | Except.ok s => s
  | Except.error _ => []

/-- The slot `stdDevsInSeqs[i]` once worker `i` has returned. -/
def sdSlot (r : Fetched) : F64 :=
  match r with
  | Except.ok s => roundedStdDev s
  | Except.error _ => F64.zero

/-- The round-robin schedule: three rounds over all workers. -/
def roundRobin (n : Nat) : List Nat := List.range n ++ List.range n ++ List.range n

/-- A parameter value that `Get` refuses: after the default for an empty value, it
is not an integer (`Atoi` fails) or it is an integer outside `[1, maxVal]`. -/
def refused (param : String) (maxVal : Int) : Bool :=
  match Atoi (orDefault param) with
  | none => true
  | some v => decide (v < 1 ∨ maxVal < v)

/-- The answer of a fetch as the worker sees it; a fetch that panics has none, and is
given an error here only to make the function total. -/
def fetchedOf (c : Call Fetched) : Fetched :=
  match c with
  | Call.returns x => x
  | Call.panics => Except.error "panic"

/-! ## The statistics in the words of the specification

The standard deviation "rounded to 3 decimal places" is stated twice: exactly, over the
rationals (`ExactStdDev3`), and as the evaluation in binary64 arithmetic (`stdDevDivN`
followed by the rounding rule `RoundsTo`). -/

/-- The exact mean of a list of integers. -/
def exactMean (s : List Int) : ℚ := (s.sum : ℚ) / (s.length : ℚ)

/-- The exact mean squared deviation from the mean (divisor `N`). -/
def exactVariance (s : List Int) : ℚ :=
  (s.map (fun x => ((x : ℚ) - exactMean s) ^ 2)).sum / (s.length : ℚ)

/-- The number `k / 1000` is the exact standard deviation of `s` with divisor `N`,
rounded to 3 decimal places (a half rounded up): `k - 1/2 ≤ 1000 * σ < k + 1/2` for the
square root `σ` of the exact variance.  The square root is avoided by comparing the
squares, which for `k = 0` leaves the upper bound only. -/
def ExactStdDev3 (s : List Int) (k : Nat) : Prop :=
  (k = 0 ∨ ((k : ℚ) - 1 / 2) ^ 2 ≤ 1000000 * exactVariance s) ∧
  1000000 * exactVariance s < ((k : ℚ) + 1 / 2) ^ 2

/-- The sum of a list of binary64 values, accumulated from the left. -/
def fsum (xs : List F64) : F64 := xs.foldl F64.add F64.zero

/-- The standard deviation with divisor `N`, evaluated in binary64 arithmetic: the
square root of the mean squared deviation from the mean, where a mean is the sum divided
by the number `N` of values (not by `N - 1`); every operation is the binary64 one. -/
def stdDevDivN (xs : List F64) : F64 :=
  let N := F64.ofInt xs.length
  let mean := F64.div (fsum xs) N
  F64.sqrt (F64.div (fsum (xs.map (fun x => F64.mul (F64.sub x mean) (F64.sub x mean)))) N)

/-- The integer `k` is the rational `q` rounded to the nearest integer, a half rounded
away from zero. -/
def RoundsTo (q : ℚ) (k : Int) : Prop :=
  |(k : ℚ) - q| ≤ 1 / 2 ∧ (|(k : ℚ) - q| = 1 / 2 → |q| ≤ |(k : ℚ)|)

/-- The rational value of a finite binary64 number (NaN is given the value 0). -/
def F64.toRat : F64 → ℚ
  | F64.nan => 0
  | F64.fin m e => (m : ℚ) * (2 : ℚ) ^ e

/-- The sign factor of a signed magnitude. -/
def F64.signOf (neg : Bool) : ℚ := if neg then -1 else 1

/-- A finite value that is not negative. -/
def F64.NonNeg : F64 → Prop
  | F64.nan => False
  | F64.fin m _ => 0 ≤ m

/-- An upstream answer that `requestRandomInts` and the statistics cope with: anything
but a body with neither `result` nor `error`, and but a result whose `data` is empty. -/
def Upstream.tame : Upstream → Prop
  | Upstream.transportError _ => True
  | Upstream.undecodable _ => True
  | Upstream.decoded ⟨_, some _, _⟩ => True
  | Upstream.decoded ⟨some res, none, _⟩ => res.Random.Data ≠ []
  | Upstream.decoded ⟨none, none, _⟩ => False

/-- A finite value in normal form: zero, or a mantissa of exactly 53 bits. -/
def F64.Normal : F64 → Prop
  | F64.nan => False
  | F64.fin m e => (m = 0 ∧ e = 0) ∨ (2 ^ 52 ≤ m.natAbs ∧ m.natAbs < 2 ^ 53)

/-- The binary64 number nearest to the rational `q` (ties to even). -/
def F64.rn (q : ℚ) : F64 := F64.ofQuot q.num q.den

/-! # Proofs -/

/-! ## The binary64 model: rounding and square root are correct -/

namespace F64

set_option maxRecDepth 100000 in
/-- The model reproduces well-known binary64 results: the values of `0.1` and `1/3`,
`0.1 + 0.2 = 0.30000000000000004`, `0.3 - 0.1 = 0.19999999999999998`,
`0.1 * 3 = 0.30000000000000004`, `√2`, the ties `2 ^ 53 + 1` and `2 ^ 53 + 3` rounded
to their even neighbours, and `Floor`, `Ceil` and `Modf` at `-3.5`. -/
theorem known_values :
    F64.ofQuot 1 10 = F64.fin 7205759403792794 (-56) ∧
    F64.div (F64.ofInt 1) (F64.ofInt 3) = F64.fin 6004799503160661 (-54) ∧
    F64.add (F64.ofQuot 1 10) (F64.ofQuot 2 10) = F64.fin 5404319552844596 (-54) ∧
    F64.sub (F64.ofQuot 3 10) (F64.ofQuot 1 10) = F64.fin 7205759403792793 (-55) ∧
    F64.mul (F64.ofQuot 1 10) (F64.ofInt 3) = F64.fin 5404319552844596 (-54) ∧
    F64.sqrt (F64.ofInt 2) = F64.fin 6369051672525773 (-52) ∧
    F64.ofInt 9007199254740993 = F64.fin 4503599627370496 1 ∧
    F64.ofInt 9007199254740995 = F64.fin 4503599627370498 1 ∧
    F64.floor (F64.ofQuot (-7) 2) = F64.ofInt (-4) ∧
    F64.ceil (F64.ofQuot (-7) 2) = F64.ofInt (-3) ∧
    F64.modf (F64.ofQuot (-7) 2) = (F64.ofInt (-3), F64.ofQuot (-1) 2) := by
  decide

theorem log2Loop_eq (fuel n acc : Nat) (h : n ≤ fuel) :
    log2Loop fuel n acc = acc + Nat.log 2 n := by
  induction fuel generalizing n acc with
  | zero =>
    have : n = 0 := by omega
    subst this
    simp [log2Loop]
  | succ fuel ih =>
    unfold log2Loop
    by_cases h2 : 2 ≤ n
    · rw [if_pos h2, ih (n / 2) (acc + 1) (by omega),
        Nat.log_of_one_lt_of_le (by decide) h2]
      omega
    · rw [if_neg h2, Nat.log_of_lt (by omega)]
      rfl

theorem log2_eq (n : Nat) : log2 n = Nat.log 2 n := by
  unfold log2
  rw [log2Loop_eq n n 0 (le_refl n)]
  omega

theorem log2_bounds (n : Nat) (hn : 0 < n) : 2 ^ log2 n ≤ n ∧ n < 2 * 2 ^ log2 n := by
  rw [log2_eq]
  refine ⟨Nat.pow_log_le_self 2 (by omega), ?_⟩
  have := Nat.lt_pow_succ_log_self (by decide : 1 < 2) n
  rw [Nat.pow_succ] at this
  omega

theorem log2_mul_pow (K j : Nat) (hK : 0 < K) : log2 (K * 2 ^ j) = Nat.log 2 K + j := by
  rw [log2_eq]
  apply Nat.log_eq_of_pow_le_of_lt_pow
  · rw [pow_add]
    exact Nat.mul_le_mul_right _ (Nat.pow_log_le_self 2 (by omega))
  · have := Nat.lt_pow_succ_log_self (by decide : 1 < 2) K
    calc K * 2 ^ j < 2 ^ (Nat.log 2 K).succ * 2 ^ j :=
          Nat.mul_lt_mul_of_pos_right this (by positivity)
      _ = 2 ^ (Nat.log 2 K + j + 1) := by
          rw [← pow_add]; congr 1; omega

theorem divNearestEven_exact (q d : Nat) (hd : 0 < d) : divNearestEven (q * d) d = q := by
  unfold divNearestEven
  simp [Nat.mul_div_cancel _ hd, hd]

/-- The rounded quotient is within one half of `n / d`, and on a tie it is even. -/
theorem divNearestEven_spec (n d : Nat) (hd : 0 < d) :
    2 * n ≤ (2 * divNearestEven n d + 1) * d ∧
    2 * divNearestEven n d * d ≤ 2 * n + d ∧
    (2 * n = (2 * divNearestEven n d + 1) * d ∨ 2 * divNearestEven n d * d = 2 * n + d →
      divNearestEven n d % 2 = 0) := by
  have hdiv : n / d * d + n % d = n := Nat.div_add_mod' n d
  have hmod : n % d < d := Nat.mod_lt n hd
  have e1 : ∀ q : Nat, (2 * q + 1) * d = 2 * (q * d) + d := fun q => by ring
  have e2 : ∀ q : Nat, 2 * q * d = 2 * (q * d) := fun q => by ring
  have e3 : (n / d + 1) * d = n / d * d + d := by ring
  unfold divNearestEven
  simp only
  by_cases h1 : 2 * (n % d) < d
  · rw [if_pos h1, e1, e2]
    refine ⟨by omega, by omega, ?_⟩
    rintro (h | h) <;> omega
  · rw [if_neg h1]
    by_cases h2 : d < 2 * (n % d)
    · rw [if_pos h2, e1, e2, e3]
      refine ⟨by omega, by omega, ?_⟩
      rintro (h | h) <;> omega
    · rw [if_neg h2]
      by_cases h4 : n / d % 2 = 0
      · rw [if_pos h4, e1, e2]
        exact ⟨by omega, by omega, fun _ => h4⟩
      · rw [if_neg h4, e1, e2, e3]
        exact ⟨by omega, by omega, fun _ => by omega⟩

theorem scale_pos (N D : Nat) (s : Int) (hD : 0 < D) : 0 < (scale N D s).2 := by
  unfold scale
  split
  · exact hD
  · exact Nat.mul_pos hD (by positivity)

theorem scale_value (N D : Nat) (s : Int) (hD : 0 < D) :
    ((scale N D s).1 : ℚ) / ((scale N D s).2 : ℚ) = (N : ℚ) / (D : ℚ) * (2 : ℚ) ^ s := by
  have hD' : (D : ℚ) ≠ 0 := by exact_mod_cast (Nat.pos_iff_ne_zero.mp hD)
  unfold scale
  by_cases hs : 0 ≤ s
  · rw [if_pos hs]
    obtain ⟨k, rfl⟩ := Int.eq_ofNat_of_zero_le hs
    simp only [Int.toNat_ofNat, Nat.cast_mul, Nat.cast_pow, Nat.cast_ofNat, zpow_natCast]
    field_simp
  · rw [if_neg hs]
    obtain ⟨k, hk⟩ : ∃ k : Nat, s = -(k : Int) := ⟨(-s).toNat, by omega⟩
    subst hk
    simp only [neg_neg, Int.toNat_ofNat, Nat.cast_mul, Nat.cast_pow, Nat.cast_ofNat, zpow_neg,
      zpow_natCast]
    field_simp

theorem scale_pow_mul (K j : Nat) (hk : Nat.log 2 K ≤ 52) :
    ∃ d : Nat, 0 < d ∧
      scale (K * 2 ^ j) 1 (52 - ((Nat.log 2 K + j : Nat) : Int))
        = (K * 2 ^ (52 - Nat.log 2 K) * d, d) := by
  by_cases hc : Nat.log 2 K + j ≤ 52
  · refine ⟨1, by decide, ?_⟩
    unfold scale
    rw [if_pos (by omega)]
    have ht : (52 - ((Nat.log 2 K + j : Nat) : Int)).toNat = 52 - Nat.log 2 K - j := by omega
    rw [ht, Nat.mul_assoc, ← pow_add]
    have : j + (52 - Nat.log 2 K - j) = 52 - Nat.log 2 K := by omega
    rw [this, Nat.mul_one]
  · refine ⟨2 ^ (Nat.log 2 K + j - 52), by positivity, ?_⟩
    unfold scale
    rw [if_neg (by omega)]
    have ht : (-(52 - ((Nat.log 2 K + j : Nat) : Int))).toNat = Nat.log 2 K + j - 52 := by omega
    rw [ht, Nat.one_mul, Nat.mul_assoc, ← pow_add]
    have : 52 - Nat.log 2 K + (Nat.log 2 K + j - 52) = j := by omega
    rw [this]

/-- The shift places the scaled quotient in `[2 ^ 52, 2 ^ 53)`: the rounded mantissa
has 53 significant bits. -/
theorem shiftFor_spec (N D : Nat) (hN : 0 < N) (hD : 0 < D) :
    2 ^ 52 * (scale N D (shiftFor N D)).2 ≤ (scale N D (shiftFor N D)).1 ∧
    (scale N D (shiftFor N D)).1 < 2 ^ 53 * (scale N D (shiftFor N D)).2 := by
  obtain ⟨ha1, ha2⟩ := log2_bounds N hN
  obtain ⟨hb1, hb2⟩ := log2_bounds D hD
  have h52 : (2 : Nat) ^ 52 = 4503599627370496 := by norm_num
  have h53 : (2 : Nat) ^ 53 = 9007199254740992 := by norm_num
  by_cases hc : log2 N ≤ 52 + log2 D
  · -- the numerator is scaled up by `2 ^ k`
    obtain ⟨k, hk⟩ : ∃ k : Nat, 52 + log2 D = log2 N + k := ⟨52 + log2 D - log2 N, by omega⟩
    have hs0 : (52 : Int) + (log2 D : Int) - (log2 N : Int) = (k : Int) := by omega
    have hY : 2 ^ log2 N * 2 ^ k = 2 ^ 52 * 2 ^ log2 D := by
      rw [← pow_add, ← pow_add, hk]
    have hp : 0 < 2 ^ k := by positivity
    have hX1 : 2 ^ log2 N * 2 ^ k ≤ N * 2 ^ k := Nat.mul_le_mul_right _ ha1
    have hX2 : N * 2 ^ k < 2 * 2 ^ log2 N * 2 ^ k := Nat.mul_lt_mul_of_pos_right ha2 hp
    have hsc : scale N D (k : Int) = (N * 2 ^ k, D) := by
      unfold scale
      rw [if_pos (by omega)]
      simp
    have hsc1 : scale N D ((k : Int) + 1) = (2 * (N * 2 ^ k), D) := by
      unfold scale
      rw [if_pos (by omega)]
      have : ((k : Int) + 1).toNat = k + 1 := by omega
      rw [this, pow_succ]
      congr 1
      ring
    unfold shiftFor
    simp only [hs0, hsc]
    by_cases hT : 2 ^ 52 * D ≤ N * 2 ^ k
    · rw [if_pos hT, hsc]
      simp only
      rw [Nat.mul_assoc] at hX2
      omega
    · rw [if_neg hT, hsc1]
      simp only
      rw [Nat.mul_assoc] at hX2
      omega
  · -- the denominator is scaled up by `2 ^ k`
    obtain ⟨k, hk⟩ : ∃ k : Nat, log2 N = 52 + log2 D + (k + 1) :=
      ⟨log2 N - 52 - log2 D - 1, by omega⟩
    have hs0 : (52 : Int) + (log2 D : Int) - (log2 N : Int) = -((k : Int) + 1) := by omega
    have hY : 2 ^ log2 N = 2 ^ 52 * (2 * (2 ^ log2 D * 2 ^ k)) := by
      rw [hk, pow_add, pow_add, pow_succ]
      ring
    have hZ1 : 2 ^ log2 D * 2 ^ k ≤ D * 2 ^ k := Nat.mul_le_mul_right _ hb1
    have hZ2 : D * 2 ^ k < 2 * 2 ^ log2 D * 2 ^ k :=
      Nat.mul_lt_mul_of_pos_right hb2 (by positivity)
    have hsc : scale N D (-((k : Int) + 1)) = (N, 2 * (D * 2 ^ k)) := by
      unfold scale
      rw [if_neg (by omega)]
      have : (- -((k : Int) + 1)).toNat = k + 1 := by omega
      rw [this, pow_succ]
      congr 1
      ring
    have hsc1 : scale N D (-((k : Int) + 1) + 1) = (N, D * 2 ^ k) := by
      unfold scale
      by_cases hk0 : k = 0
      · subst hk0
        simp
      · rw [if_neg (by omega)]
        have : (-(-((k : Int) + 1) + 1)).toNat = k := by omega
        rw [this]
    unfold shiftFor
    simp only [hs0, hsc]
    rw [Nat.mul_assoc] at hZ2
    by_cases hT : 2 ^ 52 * (2 * (D * 2 ^ k)) ≤ N
    · rw [if_pos hT, hsc]
      simp only
      omega
    · rw [if_neg hT, hsc1]
      simp only
      omega

theorem toRat_pack (neg : Bool) (q : Nat) (e : Int) :
    toRat (pack neg q e) = signOf neg * (q : ℚ) * (2 : ℚ) ^ e := by
  unfold pack
  by_cases hq : q = 2 ^ 53
  · subst hq
    simp only [if_true, toRat, signOf]
    have h2 : (2 : ℚ) ^ (e + 1) = 2 ^ e * 2 := zpow_add_one₀ (by norm_num) e
    cases neg <;> simp [h2] <;> ring
  · simp only [if_neg hq, toRat, signOf]
    cases neg <;> simp

/-- The shape of a rounded value: a packed mantissa of 53 bits. -/
theorem round_eq_pack (neg : Bool) (N D : Nat) (e : Int) (hN : 0 < N) :
    round neg N D e
      = pack neg (divNearestEven (scale N D (shiftFor N D)).1 (scale N D (shiftFor N D)).2)
          (e - shiftFor N D) := by
  unfold round
  rw [if_neg (by omega)]

/-- A positive number has one binade: the exponent that scales it into
`[2 ^ 52, 2 ^ 53)` is unique. -/
theorem binade_unique (X : ℚ) (a b : Int) (ha1 : (2 : ℚ) ^ 52 ≤ X * 2 ^ a)
    (ha2 : X * 2 ^ a < (2 : ℚ) ^ 53) (hb1 : (2 : ℚ) ^ 52 ≤ X * 2 ^ b)
    (hb2 : X * 2 ^ b < (2 : ℚ) ^ 53) : a = b := by
  have key : ∀ (c d : Int), (2 : ℚ) ^ 52 ≤ X * 2 ^ c → X * 2 ^ d < (2 : ℚ) ^ 53 → d ≤ c := by
    intro c d hc hd
    by_contra hcon
    have hcd : c + 1 ≤ d := by omega
    have h2 : (2 : ℚ) ^ (c + 1) ≤ 2 ^ d := zpow_le_zpow_right₀ (by norm_num) hcd
    have hXpos : 0 < X := by
      by_contra hX
      have hX' : X ≤ 0 := le_of_not_lt hX
      have : X * 2 ^ c ≤ 0 := mul_nonpos_of_nonpos_of_nonneg hX' (by positivity)
      have : (0 : ℚ) < 2 ^ 52 := by positivity
      linarith
    have h3 : (2 : ℚ) ^ (c + 1) = 2 ^ c * 2 := zpow_add_one₀ (by norm_num) c
    have h4 : X * (2 ^ c * 2) ≤ X * 2 ^ d := by
      rw [← h3]; exact mul_le_mul_of_nonneg_left h2 (le_of_lt hXpos)
    have h5 : (2 : ℚ) ^ 53 = 2 ^ 52 * 2 := by norm_num
    nlinarith
  have h1 := key a b ha1 hb2
  have h2 := key b a hb1 ha2
  omega

/-- The natural number nearest to `x`, ties to even, is unique. -/
theorem nearest_unique (x : ℚ) (q1 q2 : Nat) (h1 : |(q1 : ℚ) - x| ≤ 1 / 2)
    (h2 : |(q2 : ℚ) - x| ≤ 1 / 2) (t1 : |(q1 : ℚ) - x| = 1 / 2 → q1 % 2 = 0)
    (t2 : |(q2 : ℚ) - x| = 1 / 2 → q2 % 2 = 0) : q1 = q2 := by
  rw [abs_le] at h1 h2
  have hd : ((q1 : ℚ) - q2) ≤ 1 ∧ ((q2 : ℚ) - q1) ≤ 1 := ⟨by linarith, by linarith⟩
  have hq : q1 ≤ q2 + 1 ∧ q2 ≤ q1 + 1 := by
    constructor
    · have : (q1 : ℚ) ≤ (q2 : ℚ) + 1 := by linarith
      exact_mod_cast this
    · have : (q2 : ℚ) ≤ (q1 : ℚ) + 1 := by linarith
      exact_mod_cast this
  by_contra hne
  rcases Nat.lt_or_gt_of_ne hne with hlt | hgt
  · have he : q2 = q1 + 1 := by omega
    have hc : (q2 : ℚ) = (q1 : ℚ) + 1 := by exact_mod_cast he
    have e1 : |(q1 : ℚ) - x| = 1 / 2 := by
      rw [abs_of_nonpos (by linarith)]; linarith
    have e2 : |(q2 : ℚ) - x| = 1 / 2 := by
      rw [abs_of_nonneg (by linarith)]; linarith
    have := t1 e1
    have := t2 e2
    omega
  · have he : q1 = q2 + 1 := by omega
    have hc : (q1 : ℚ) = (q2 : ℚ) + 1 := by exact_mod_cast he
    have e1 : |(q1 : ℚ) - x| = 1 / 2 := by
      rw [abs_of_nonneg (by linarith)]; linarith
    have e2 : |(q2 : ℚ) - x| = 1 / 2 := by
      rw [abs_of_nonpos (by linarith)]; linarith
    have := t1 e1
    have := t2 e2
    omega

/-- The mantissa that `round` packs: with `s = shiftFor N D` and `x = N / D * 2 ^ s`,
which lies in `[2 ^ 52, 2 ^ 53)`, it is the natural number nearest to `x`, even when
`x` is half-way between two naturals, and it lies in `[2 ^ 52, 2 ^ 53]`. -/
theorem round_mantissa (N D : Nat) (hN : 0 < N) (hD : 0 < D) :
    2 ^ 52 ≤ divNearestEven (scale N D (shiftFor N D)).1 (scale N D (shiftFor N D)).2 ∧
    divNearestEven (scale N D (shiftFor N D)).1 (scale N D (shiftFor N D)).2 ≤ 2 ^ 53 ∧
    (2 : ℚ) ^ 52 ≤ (N : ℚ) / (D : ℚ) * (2 : ℚ) ^ shiftFor N D ∧
    (N : ℚ) / (D : ℚ) * (2 : ℚ) ^ shiftFor N D < (2 : ℚ) ^ 53 ∧
    |((divNearestEven (scale N D (shiftFor N D)).1 (scale N D (shiftFor N D)).2 : Nat) : ℚ)
        - (N : ℚ) / (D : ℚ) * (2 : ℚ) ^ shiftFor N D| ≤ 1 / 2 ∧
    (|((divNearestEven (scale N D (shiftFor N D)).1 (scale N D (shiftFor N D)).2 : Nat) : ℚ)
        - (N : ℚ) / (D : ℚ) * (2 : ℚ) ^ shiftFor N D| = 1 / 2 →
      divNearestEven (scale N D (shiftFor N D)).1 (scale N D (shiftFor N D)).2 % 2 = 0) := by
  have hd := scale_pos N D (shiftFor N D) hD
  obtain ⟨hlo, hhi⟩ := shiftFor_spec N D hN hD
  obtain ⟨h1, h2, h3⟩ := divNearestEven_spec (scale N D (shiftFor N D)).1
    (scale N D (shiftFor N D)).2 hd
  have hval := scale_value N D (shiftFor N D) hD
  generalize (scale N D (shiftFor N D)).1 = n at hlo hhi h1 h2 h3 hval hd ⊢
  generalize (scale N D (shiftFor N D)).2 = d at hlo hhi h1 h2 h3 hval hd ⊢
  generalize divNearestEven n d = q at h1 h2 h3 ⊢
  have hdq : (0 : ℚ) < (d : ℚ) := by exact_mod_cast hd
  have e1 : (2 * q + 1) * d = 2 * (q * d) + d := by ring
  have e2 : 2 * q * d = 2 * (q * d) := by ring
  have hqlo : 2 ^ 52 ≤ q := by
    by_contra hcon
    have hq' : q + 1 ≤ 2 ^ 52 := by omega
    have := Nat.mul_le_mul_right d hq'
    have e3 : (q + 1) * d = q * d + d := by ring
    rw [e1] at h1
    omega
  have hqhi : q ≤ 2 ^ 53 := by
    by_contra hcon
    have hq' : 2 ^ 53 + 1 ≤ q := by omega
    have := Nat.mul_le_mul_right d hq'
    have e3 : (2 ^ 53 + 1) * d = 2 ^ 53 * d + d := by ring
    rw [e2] at h2
    omega
  have c1 : (2 * (n : ℚ)) ≤ (2 * (q : ℚ) + 1) * (d : ℚ) := by exact_mod_cast h1
  have c2 : 2 * (q : ℚ) * (d : ℚ) ≤ 2 * (n : ℚ) + (d : ℚ) := by exact_mod_cast h2
  have hup : (n : ℚ) / (d : ℚ) ≤ (q : ℚ) + 1 / 2 := by
    rw [div_le_iff₀ hdq]; linarith
  have hdn : (q : ℚ) - 1 / 2 ≤ (n : ℚ) / (d : ℚ) := by
    rw [le_div_iff₀ hdq]; linarith
  refine ⟨hqlo, hqhi, ?_, ?_, ?_, ?_⟩
  · rw [← hval, le_div_iff₀ hdq]
    exact_mod_cast hlo
  · rw [← hval, div_lt_iff₀ hdq]
    exact_mod_cast hhi
  · rw [← hval, abs_le]
    constructor <;> linarith
  · rw [← hval]
    intro htie
    apply h3
    rcases abs_eq (by norm_num : (0 : ℚ) ≤ 1 / 2) |>.mp htie with h | h
    · right
      have h4 : (n : ℚ) / (d : ℚ) = (q : ℚ) - 1 / 2 := by linarith
      have h5 : (n : ℚ) = ((q : ℚ) - 1 / 2) * (d : ℚ) := (div_eq_iff hdq.ne').mp h4
      have : 2 * (q : ℚ) * (d : ℚ) = 2 * (n : ℚ) + (d : ℚ) := by rw [h5]; ring
      exact_mod_cast this
    · left
      have h4 : (n : ℚ) / (d : ℚ) = (q : ℚ) + 1 / 2 := by linarith
      have h5 : (n : ℚ) = ((q : ℚ) + 1 / 2) * (d : ℚ) := (div_eq_iff hdq.ne').mp h4
      have : 2 * (n : ℚ) = (2 * (q : ℚ) + 1) * (d : ℚ) := by rw [h5]; ring
      exact_mod_cast this

/-- Correctness of the rounding: for `N, D > 0` and `s = shiftFor N D`, the scaled
quotient `x = N / D * 2 ^ s` lies in `[2 ^ 52, 2 ^ 53)`, and `round` returns
`± q * 2 ^ (e - s)` for the natural number `q` nearest to `x` (within one half, and
even when `x` is half-way between two naturals); `2 ^ 52 ≤ q ≤ 2 ^ 53`. -/
theorem round_nearest (neg : Bool) (N D : Nat) (e : Int) (hN : 0 < N) (hD : 0 < D) :
    ∃ q : Nat,
      toRat (round neg N D e) = signOf neg * (q : ℚ) * (2 : ℚ) ^ (e - shiftFor N D) ∧
      2 ^ 52 ≤ q ∧ q ≤ 2 ^ 53 ∧
      (2 : ℚ) ^ 52 ≤ (N : ℚ) / (D : ℚ) * (2 : ℚ) ^ shiftFor N D ∧
      (N : ℚ) / (D : ℚ) * (2 : ℚ) ^ shiftFor N D < (2 : ℚ) ^ 53 ∧
      |(q : ℚ) - (N : ℚ) / (D : ℚ) * (2 : ℚ) ^ shiftFor N D| ≤ 1 / 2 ∧
      (|(q : ℚ) - (N : ℚ) / (D : ℚ) * (2 : ℚ) ^ shiftFor N D| = 1 / 2 → q % 2 = 0) := by
  obtain ⟨h1, h2, h3, h4, h5, h6⟩ := round_mantissa N D hN hD
  exact ⟨_, by rw [round_eq_pack neg N D e hN, toRat_pack], h1, h2, h3, h4, h5, h6⟩

/-- The rounding depends on the rounded number only: two quotients of the same value
round to the same binary64 number. -/
theorem round_congr (neg : Bool) (N1 D1 N2 D2 : Nat) (e1 e2 : Int) (hN1 : 0 < N1)
    (hD1 : 0 < D1) (hN2 : 0 < N2) (hD2 : 0 < D2)
    (h : (N1 : ℚ) / (D1 : ℚ) * (2 : ℚ) ^ e1 = (N2 : ℚ) / (D2 : ℚ) * (2 : ℚ) ^ e2) :
    round neg N1 D1 e1 = round neg N2 D2 e2 := by
  obtain ⟨_, _, a3, a4, a5, a6⟩ := round_mantissa N1 D1 hN1 hD1
  obtain ⟨_, _, b3, b4, b5, b6⟩ := round_mantissa N2 D2 hN2 hD2
  rw [round_eq_pack neg N1 D1 e1 hN1, round_eq_pack neg N2 D2 e2 hN2]
  generalize divNearestEven (scale N1 D1 (shiftFor N1 D1)).1 (scale N1 D1 (shiftFor N1 D1)).2
    = q1 at a5 a6 ⊢
  generalize divNearestEven (scale N2 D2 (shiftFor N2 D2)).1 (scale N2 D2 (shiftFor N2 D2)).2
    = q2 at b5 b6 ⊢
  generalize shiftFor N1 D1 = s1 at a3 a4 a5 a6 ⊢
  generalize shiftFor N2 D2 = s2 at b3 b4 b5 b6 ⊢
  have two : (2 : ℚ) ≠ 0 := by norm_num
  have hx1 : (N1 : ℚ) / (D1 : ℚ) * (2 : ℚ) ^ s1
      = (N1 : ℚ) / (D1 : ℚ) * (2 : ℚ) ^ e1 * (2 : ℚ) ^ (s1 - e1) := by
    rw [mul_assoc, ← zpow_add₀ two]; congr 2; omega
  have hx2 : (N2 : ℚ) / (D2 : ℚ) * (2 : ℚ) ^ s2
      = (N1 : ℚ) / (D1 : ℚ) * (2 : ℚ) ^ e1 * (2 : ℚ) ^ (s2 - e2) := by
    rw [h, mul_assoc, ← zpow_add₀ two]; congr 2; omega
  rw [hx1] at a3 a4 a5 a6
  rw [hx2] at b3 b4 b5 b6
  have hs : s1 - e1 = s2 - e2 := binade_unique _ _ _ a3 a4 b3 b4
  rw [← hs] at b5 b6
  have hq : q1 = q2 := nearest_unique _ q1 q2 a5 b5 a6 b6
  subst hq
  congr 1
  omega

/-- Rounding is exact on a number that fits 53 bits: `K * 2 ^ j` times `2 ^ e`, with
`0 < K < 2 ^ 53`, is returned in normal form. -/
theorem round_pow_mul (neg : Bool) (K j : Nat) (e : Int) (hK0 : 0 < K) (hK : K < 2 ^ 53) :
    round neg (K * 2 ^ j) 1 e
      = fin (if neg then -((K * 2 ^ (52 - Nat.log 2 K) : Nat) : Int)
             else ((K * 2 ^ (52 - Nat.log 2 K) : Nat) : Int))
          (e + j + Nat.log 2 K - 52) := by
  have hk1 : 2 ^ Nat.log 2 K ≤ K := Nat.pow_log_le_self 2 (by omega)
  have hk2 : K < 2 ^ (Nat.log 2 K + 1) := Nat.lt_pow_succ_log_self (by decide) K
  have hk : Nat.log 2 K ≤ 52 := by
    have : 2 ^ Nat.log 2 K < 2 ^ 53 := lt_of_le_of_lt hk1 hK
    have := (Nat.pow_lt_pow_iff_right (by decide : 1 < 2)).mp this
    omega
  have hq1 : 2 ^ 52 ≤ K * 2 ^ (52 - Nat.log 2 K) := by
    calc 2 ^ 52 = 2 ^ Nat.log 2 K * 2 ^ (52 - Nat.log 2 K) := by
          rw [← pow_add]; congr 1; omega
      _ ≤ K * 2 ^ (52 - Nat.log 2 K) := Nat.mul_le_mul_right _ hk1
  have hq2 : K * 2 ^ (52 - Nat.log 2 K) < 2 ^ 53 := by
    calc K * 2 ^ (52 - Nat.log 2 K) < 2 ^ (Nat.log 2 K + 1) * 2 ^ (52 - Nat.log 2 K) :=
          Nat.mul_lt_mul_of_pos_right hk2 (by positivity)
      _ = 2 ^ 53 := by rw [← pow_add]; congr 1; omega
  have hN : K * 2 ^ j ≠ 0 := by positivity
  obtain ⟨d, hd, hscale⟩ := scale_pow_mul K j hk
  have hlog1 : log2 1 = 0 := by decide
  have hs0 : (52 : Int) + ((log2 1 : Nat) : Int) - ((log2 (K * 2 ^ j) : Nat) : Int)
      = 52 - ((Nat.log 2 K + j : Nat) : Int) := by
    rw [hlog1, log2_mul_pow K j hK0]; simp
  have hshift : shiftFor (K * 2 ^ j) 1 = 52 - ((Nat.log 2 K + j : Nat) : Int) := by
    unfold shiftFor
    simp only [hs0, hscale]
    rw [if_pos (Nat.mul_le_mul_right d hq1)]
  unfold round
  rw [if_neg hN]
  simp only [hshift, hscale, divNearestEven_exact _ d hd]
  unfold pack
  rw [if_neg (by omega)]
  simp only
  congr 1
  push_cast
  omega

/-- Aligning two finite values keeps both values. -/
theorem align_value (m1 e1 m2 e2 : Int) :
    ((align m1 e1 m2 e2).1 : ℚ) * (2 : ℚ) ^ (align m1 e1 m2 e2).2.2 = (m1 : ℚ) * (2 : ℚ) ^ e1 ∧
    ((align m1 e1 m2 e2).2.1 : ℚ) * (2 : ℚ) ^ (align m1 e1 m2 e2).2.2
      = (m2 : ℚ) * (2 : ℚ) ^ e2 := by
  have key : ∀ (m a b : Int), b ≤ a →
      ((m * 2 ^ (a - b).toNat : Int) : ℚ) * (2 : ℚ) ^ b = (m : ℚ) * (2 : ℚ) ^ a := by
    intro m a b hab
    obtain ⟨k, hk⟩ : ∃ k : Nat, a = b + k := ⟨(a - b).toNat, by omega⟩
    subst hk
    have : (b + (k : Int) - b).toNat = k := by omega
    rw [this, zpow_add₀ (by norm_num : (2 : ℚ) ≠ 0)]
    push_cast
    rw [zpow_natCast]
    ring
  unfold align
  exact ⟨key m1 e1 _ (min_le_left e1 e2), key m2 e2 _ (min_le_right e1 e2)⟩

/-- The loop returns the integer square root once the bits above `b` are settled. -/
theorem isqrtLoop_spec (b X r : Nat) (h1 : r * r ≤ X) (h2 : X < (r + 2 ^ b) * (r + 2 ^ b)) :
    isqrtLoop b X r * isqrtLoop b X r ≤ X ∧
    X < (isqrtLoop b X r + 1) * (isqrtLoop b X r + 1) := by
  induction b generalizing r with
  | zero => exact ⟨h1, by simpa [isqrtLoop] using h2⟩
  | succ b ih =>
    unfold isqrtLoop
    by_cases hc : (r + 2 ^ b) * (r + 2 ^ b) ≤ X
    · rw [if_pos hc]
      apply ih _ hc
      have : r + 2 ^ b + 2 ^ b = r + 2 ^ (b + 1) := by rw [pow_succ]; omega
      rw [this]
      exact h2
    · rw [if_neg hc]
      exact ih _ h1 (by omega)

/-- Correctness of the square root: for a positive normal `m * 2 ^ e`, with the
radicand rescaled to the integer `X = m * 2 ^ u` (`u` is 52 or 53 and `e - u` is even),
`sqrt` returns `q * 2 ^ ((e - u) / 2)` for the natural number `q` nearest to `√X`, that
is `(q - 1/2)² < X < (q + 1/2)²`; and `2 ^ 52 ≤ q ≤ 2 ^ 53`. -/
theorem sqrt_nearest (m : Nat) (e : Int) (h1 : 2 ^ 52 ≤ m) (h2 : m < 2 ^ 53) :
    ∃ q u : Nat,
      sqrt (fin (m : Int) e) = pack false q ((e - (u : Int)) / 2) ∧
      (u = 52 ∨ u = 53) ∧ (e - (u : Int)) % 2 = 0 ∧
      q * q < m * 2 ^ u + q ∧ m * 2 ^ u ≤ q * q + q ∧
      2 ^ 52 ≤ q ∧ q ≤ 2 ^ 53 := by
  have h52 : (2 : Nat) ^ 52 = 4503599627370496 := by norm_num
  have h53 : (2 : Nat) ^ 53 = 9007199254740992 := by norm_num
  have hm0 : ¬ ((m : Int) < 0) := by omega
  have hm1 : ¬ ((m : Int) = 0) := by omega
  obtain ⟨u, hu, hpar, hudef⟩ : ∃ u : Nat, (u = 52 ∨ u = 53) ∧ (e - (u : Int)) % 2 = 0 ∧
      (if (e - 52) % 2 = 0 then (52 : Nat) else 53) = u := by
    by_cases hp : (e - 52) % 2 = 0
    · exact ⟨52, Or.inl rfl, by simpa using hp, by rw [if_pos hp]⟩
    · exact ⟨53, Or.inr rfl, by push_cast; omega, by rw [if_neg hp]⟩
  have hXlo : 2 ^ 104 ≤ m * 2 ^ u := by
    have : (2 : Nat) ^ 104 = 2 ^ 52 * 2 ^ 52 := by norm_num
    rw [this]
    apply Nat.mul_le_mul h1
    rcases hu with rfl | rfl <;> norm_num
  have hXhi : m * 2 ^ u < 2 ^ 106 := by
    have : (2 : Nat) ^ 106 = 2 ^ 53 * 2 ^ 53 := by norm_num
    rw [this]
    apply Nat.mul_lt_mul_of_lt_of_le h2 _ (by positivity)
    rcases hu with rfl | rfl <;> norm_num
  obtain ⟨hr1, hr2⟩ := isqrtLoop_spec 53 (m * 2 ^ u) 0 (by omega)
    (by have : (0 + 2 ^ 53) * (0 + 2 ^ 53) = 2 ^ 106 := by norm_num
        omega)
  generalize hrr : isqrtLoop 53 (m * 2 ^ u) 0 = r at hr1 hr2
  have hrlo : 2 ^ 52 ≤ r := by
    by_contra hcon
    have hr' : r + 1 ≤ 2 ^ 52 := by omega
    have := Nat.mul_le_mul hr' hr'
    have : (2 : Nat) ^ 52 * 2 ^ 52 = 2 ^ 104 := by norm_num
    omega
  have hrhi : r < 2 ^ 53 := by
    by_contra hcon
    have hr' : 2 ^ 53 ≤ r := by omega
    have := Nat.mul_le_mul hr' hr'
    have : (2 : Nat) ^ 53 * 2 ^ 53 = 2 ^ 106 := by norm_num
    omega
  have e1 : (r + 1) * (r + 1) = r * r + 2 * r + 1 := by ring
  refine ⟨if r * r + r < m * 2 ^ u then r + 1 else r, u, ?_, hu, hpar, ?_⟩
  · simp only [sqrt, if_neg hm0, if_neg hm1, hudef, Int.natAbs_ofNat, hrr]
  · by_cases hc : r * r + r < m * 2 ^ u
    · rw [if_pos hc]
      rw [e1] at hr2 ⊢
      refine ⟨by omega, by omega, by omega, by omega⟩
    · rw [if_neg hc]
      refine ⟨by omega, by omega, by omega, by omega⟩

end F64

/-! ## Integers below `2 ^ 53` are added and converted exactly -/

namespace F64

theorem ofDyadic_small (z : Int) (e : Int) (hz0 : z ≠ 0) (hz : z.natAbs < 2 ^ 53) (j : Nat) :
    ofDyadic (z * 2 ^ j) (e - j)
      = fin (z * 2 ^ (52 - Nat.log 2 z.natAbs)) (e + Nat.log 2 z.natAbs - 52) := by
  have hpos : 0 < z.natAbs := Int.natAbs_pos.mpr hz0
  have hp : (0 : Int) < 2 ^ j := by positivity
  unfold ofDyadic
  have habs : (z * 2 ^ j).natAbs = z.natAbs * 2 ^ j := by
    rw [Int.natAbs_mul, Int.natAbs_pow]; rfl
  have hsign : decide (z * 2 ^ j < 0) = decide (z < 0) := by
    congr 1
    apply propext
    constructor
    · intro h
      by_contra hn
      have : 0 ≤ z * 2 ^ j := Int.mul_nonneg (by omega) (le_of_lt hp)
      omega
    · intro h
      exact Int.mul_neg_of_neg_of_pos h hp
  rw [habs, hsign, round_pow_mul _ _ j _ hpos hz]
  congr 1
  · by_cases hneg : z < 0
    · have hz1 : ((z.natAbs : Nat) : Int) = -z := by omega
      simp only [hneg, decide_True, if_true]
      rw [Nat.cast_mul, hz1]
      push_cast
      ring
    · have hz1 : ((z.natAbs : Nat) : Int) = z := by omega
      simp only [hneg, decide_False, Bool.false_eq_true, if_false]
      rw [Nat.cast_mul, hz1]
      push_cast
      ring
  · omega

theorem ofDyadic_zero (e : Int) : ofDyadic 0 e = fin 0 0 := rfl

/-- A shifted mantissa of an integer below `2 ^ 53` rounds to that integer. -/
theorem ofDyadic_shift (z : Int) (S : Nat) (hz : z.natAbs < 2 ^ 53) :
    ofDyadic (z * 2 ^ S) (-(S : Int)) = ofInt z := by
  by_cases hz0 : z = 0
  · subst hz0
    simp [ofInt, ofDyadic_zero]
  · have h1 := ofDyadic_small z 0 hz0 hz S
    have h2 := ofDyadic_small z 0 hz0 hz 0
    simp only [zero_sub, pow_zero, mul_one, Nat.cast_zero, sub_zero] at h1 h2
    unfold ofInt
    rw [h1, h2]

/-- The conversion `float64(z)` is exact for `|z| < 2 ^ 53`. -/
theorem ofInt_repr (z : Int) (hz : z.natAbs < 2 ^ 53) :
    ∃ S : Nat, ofInt z = fin (z * 2 ^ S) (-(S : Int)) := by
  by_cases hz0 : z = 0
  · subst hz0
    exact ⟨0, rfl⟩
  · have hpos : 0 < z.natAbs := Int.natAbs_pos.mpr hz0
    have hk1 : 2 ^ Nat.log 2 z.natAbs ≤ z.natAbs := Nat.pow_log_le_self 2 (by omega)
    have hk : Nat.log 2 z.natAbs ≤ 52 := by
      have : 2 ^ Nat.log 2 z.natAbs < 2 ^ 53 := lt_of_le_of_lt hk1 hz
      have := (Nat.pow_lt_pow_iff_right (by decide : 1 < 2)).mp this
      omega
    refine ⟨52 - Nat.log 2 z.natAbs, ?_⟩
    have h2 := ofDyadic_small z 0 hz0 hz 0
    simp only [pow_zero, mul_one, Nat.cast_zero, sub_zero] at h2
    unfold ofInt
    rw [h2]
    congr 1
    omega

theorem add_fin_shift (a b : Int) (sa sb : Nat) :
    add (fin (a * 2 ^ sa) (-(sa : Int))) (fin (b * 2 ^ sb) (-(sb : Int)))
      = ofDyadic ((a + b) * 2 ^ (max sa sb)) (-((max sa sb : Nat) : Int)) := by
  unfold add align
  have hmin : min (-(sa : Int)) (-(sb : Int)) = -((max sa sb : Nat) : Int) := by
    rcases Nat.le_total sa sb with h | h
    · rw [max_eq_right h, min_eq_right (by omega)]
    · rw [max_eq_left h, min_eq_left (by omega)]
  simp only [hmin]
  have h1 : (-(sa : Int) - -((max sa sb : Nat) : Int)).toNat = max sa sb - sa := by
    have := le_max_left sa sb
    omega
  have h2 : (-(sb : Int) - -((max sa sb : Nat) : Int)).toNat = max sa sb - sb := by
    have := le_max_right sa sb
    omega
  rw [h1, h2]
  congr 1
  rw [mul_assoc, mul_assoc, ← pow_add, ← pow_add, add_mul]
  congr 3
  · have := le_max_left sa sb; omega
  · have := le_max_right sa sb; omega

/-- Adding two integers is exact when both and their sum are below `2 ^ 53`. -/
theorem add_ofInt (a b : Int) (ha : a.natAbs < 2 ^ 53) (hb : b.natAbs < 2 ^ 53)
    (hab : (a + b).natAbs < 2 ^ 53) : add (ofInt a) (ofInt b) = ofInt (a + b) := by
  obtain ⟨sa, hsa⟩ := ofInt_repr a ha
  obtain ⟨sb, hsb⟩ := ofInt_repr b hb
  rw [hsa, hsb, add_fin_shift, ofDyadic_shift _ _ hab]

end F64

/-- Converting back is exact too: `int(float64(z)) = z` for `|z| < 2 ^ 53`. -/
theorem toInt_ofInt (t : Target) (z : Int) (hz : z.natAbs < 2 ^ 53) :
    toInt t (F64.ofInt z) = z := by
  obtain ⟨S, hS⟩ := F64.ofInt_repr z hz
  rw [hS]
  have hp : (0 : Int) < 2 ^ S := by positivity
  have hfloor : ∀ y : Int, F64.floorInt (y * 2 ^ S) (-(S : Int)) = y := by
    intro y
    unfold F64.floorInt
    by_cases h0 : S = 0
    · subst h0; simp
    · rw [if_neg (by omega)]
      have : (- -(S : Int)).toNat = S := by omega
      rw [this]
      exact Int.mul_ediv_cancel y (ne_of_gt hp)
  have htr : F64.truncInt (z * 2 ^ S) (-(S : Int)) = z := by
    unfold F64.truncInt
    by_cases hneg : z * 2 ^ S < 0
    · rw [if_pos hneg, ← Int.neg_mul, hfloor]; omega
    · rw [if_neg hneg, hfloor]
  unfold toInt
  simp only [htr]
  have h53 : (2 : Nat) ^ 53 = 9007199254740992 := by norm_num
  rw [if_neg (by omega), if_neg (by omega)]

/-! ## Which operations return NaN, and which a negative value -/

namespace F64

theorem pack_isNaN (neg : Bool) (q : Nat) (e : Int) : (pack neg q e).isNaN = false := rfl

theorem round_isNaN (neg : Bool) (N D : Nat) (e : Int) : (round neg N D e).isNaN = false := by
  unfold round
  split <;> rfl

theorem pack_nonNeg (q : Nat) (e : Int) : NonNeg (pack false q e) := by
  unfold pack NonNeg
  simp

theorem round_nonNeg (N D : Nat) (e : Int) : NonNeg (round false N D e) := by
  unfold round
  split
  · simp [NonNeg]
  · exact pack_nonNeg _ _

theorem ofDyadic_nonNeg (M : Int) (e : Int) (h : 0 ≤ M) : NonNeg (ofDyadic M e) := by
  unfold ofDyadic
  have : decide (M < 0) = false := by simp; omega
  rw [this]
  exact round_nonNeg _ _ _

theorem nonNeg_isNaN (x : F64) (h : NonNeg x) : x.isNaN = false := by
  cases x with
  | nan => exact absurd h (by simp [NonNeg])
  | fin m e => rfl

theorem add_isNaN (x y : F64) (hx : x.isNaN = false) (hy : y.isNaN = false) :
    (add x y).isNaN = false := by
  cases x with
  | nan => simp [isNaN] at hx
  | fin m1 e1 =>
    cases y with
    | nan => simp [isNaN] at hy
    | fin m2 e2 => exact round_isNaN _ _ _ _

theorem sub_isNaN (x y : F64) (hx : x.isNaN = false) (hy : y.isNaN = false) :
    (sub x y).isNaN = false := by
  cases x with
  | nan => simp [isNaN] at hx
  | fin m1 e1 =>
    cases y with
    | nan => simp [isNaN] at hy
    | fin m2 e2 => exact round_isNaN _ _ _ _

theorem mul_isNaN (x y : F64) (hx : x.isNaN = false) (hy : y.isNaN = false) :
    (mul x y).isNaN = false := by
  cases x with
  | nan => simp [isNaN] at hx
  | fin m1 e1 =>
    cases y with
    | nan => simp [isNaN] at hy
    | fin m2 e2 => exact round_isNaN _ _ _ _

theorem ofInt_isNaN (n : Int) : (ofInt n).isNaN = false := round_isNaN _ _ _ _

theorem add_nonNeg (x y : F64) (hx : NonNeg x) (hy : NonNeg y) : NonNeg (add x y) := by
  cases x with
  | nan => exact absurd hx (by simp [NonNeg])
  | fin m1 e1 =>
    cases y with
    | nan => exact absurd hy (by simp [NonNeg])
    | fin m2 e2 =>
      unfold add
      apply ofDyadic_nonNeg
      unfold align
      simp only [NonNeg] at hx hy
      have h1 : (0 : Int) ≤ m1 * 2 ^ (e1 - min e1 e2).toNat := Int.mul_nonneg hx (by positivity)
      have h2 : (0 : Int) ≤ m2 * 2 ^ (e2 - min e1 e2).toNat := Int.mul_nonneg hy (by positivity)
      exact Int.add_nonneg h1 h2

theorem mul_self_nonNeg (x : F64) (hx : x.isNaN = false) : NonNeg (mul x x) := by
  cases x with
  | nan => simp [isNaN] at hx
  | fin m e =>
    unfold mul
    exact ofDyadic_nonNeg _ _ (mul_self_nonneg m)

theorem pack_pos (q : Nat) (e : Int) (hq : 0 < q) :
    ∃ m e2, pack false q e = fin m e2 ∧ 0 < m := by
  unfold pack
  by_cases h : q = 2 ^ 53
  · exact ⟨_, _, rfl, by simp [h]⟩
  · refine ⟨_, _, rfl, ?_⟩
    simp only [if_neg h, Bool.false_eq_true, if_false]
    exact_mod_cast hq

/-- A positive integer converts to a finite value with a positive mantissa. -/
theorem ofInt_pos (n : Nat) (hn : 0 < n) : ∃ m e, ofInt (n : Int) = fin m e ∧ 0 < m := by
  have hd := scale_pos n 1 (shiftFor n 1) (by decide)
  obtain ⟨hlo, _⟩ := shiftFor_spec n 1 hn (by decide)
  obtain ⟨h1, _, _⟩ := divNearestEven_spec (scale n 1 (shiftFor n 1)).1
    (scale n 1 (shiftFor n 1)).2 hd
  have hqpos : 0 < divNearestEven (scale n 1 (shiftFor n 1)).1 (scale n 1 (shiftFor n 1)).2 := by
    generalize (scale n 1 (shiftFor n 1)).1 = a at hlo h1
    generalize (scale n 1 (shiftFor n 1)).2 = d at hlo h1 hd
    generalize divNearestEven a d = q at h1
    by_contra hcon
    have hq0 : q = 0 := by omega
    subst hq0
    have : 2 * d ≤ 2 ^ 52 * d := Nat.mul_le_mul_right d (by norm_num)
    omega
  unfold ofInt ofDyadic round
  rw [if_neg (by omega)]
  have hneg : decide ((n : Int) < 0) = false := by simp
  simp only [hneg, Int.natAbs_ofNat]
  exact pack_pos _ _ hqpos

/-- Dividing a non-negative value by a positive one gives a non-negative value. -/
theorem div_nonNeg (x : F64) (m e : Int) (hx : NonNeg x) (hm : 0 < m) :
    NonNeg (div x (fin m e)) := by
  cases x with
  | nan => exact absurd hx (by simp [NonNeg])
  | fin m1 e1 =>
    simp only [NonNeg] at hx
    have h0 : ¬ m = 0 := by omega
    have h1 : decide (m1 < 0) = false := by simp; omega
    have h2 : decide (m < 0) = false := by simp; omega
    simp only [div, if_neg h0, h1, h2]
    exact round_nonNeg _ _ _

theorem div_isNaN (x : F64) (m e : Int) (hx : x.isNaN = false) (hm : 0 < m) :
    (div x (fin m e)).isNaN = false := by
  cases x with
  | nan => simp [isNaN] at hx
  | fin m1 e1 =>
    have h0 : ¬ m = 0 := by omega
    simp only [div, if_neg h0]
    exact round_isNaN _ _ _ _

theorem sqrt_isNaN (x : F64) (hx : NonNeg x) : (sqrt x).isNaN = false := by
  cases x with
  | nan => exact absurd hx (by simp [NonNeg])
  | fin m e =>
    simp only [NonNeg] at hx
    unfold sqrt
    simp only
    rw [if_neg (by omega)]
    split
    · rfl
    · exact pack_isNaN _ _ _

theorem floor_isNaN (x : F64) (hx : x.isNaN = false) : (floor x).isNaN = false := by
  cases x with
  | nan => simp [isNaN] at hx
  | fin m e => exact ofInt_isNaN _

theorem neg_isNaN (x : F64) (hx : x.isNaN = false) : (neg x).isNaN = false := by
  cases x with
  | nan => simp [isNaN] at hx
  | fin m e => rfl

theorem ceil_isNaN (x : F64) (hx : x.isNaN = false) : (ceil x).isNaN = false :=
  neg_isNaN _ (floor_isNaN _ (neg_isNaN _ hx))

end F64

/-! ## Normal forms, floors and exact quotients -/

namespace F64

theorem pack_normal (neg : Bool) (q : Nat) (e : Int) (h1 : 2 ^ 52 ≤ q) (h2 : q ≤ 2 ^ 53) :
    Normal (pack neg q e) := by
  unfold pack Normal
  right
  by_cases hq : q = 2 ^ 53
  · subst hq
    cases neg <;> simp
  · simp only [if_neg hq]
    cases neg
    · simp only [Bool.false_eq_true, if_false, Int.natAbs_ofNat]
      omega
    · simp only [if_true, Int.natAbs_neg, Int.natAbs_ofNat]
      omega

/-- Every rounded value is in normal form. -/
theorem round_normal (neg : Bool) (N D : Nat) (e : Int) (hD : 0 < D) :
    Normal (round neg N D e) := by
  by_cases hN : N = 0
  · subst hN
    simp [round, Normal]
  · have hN' : 0 < N := Nat.pos_of_ne_zero hN
    obtain ⟨h1, h2, _⟩ := round_mantissa N D hN' hD
    rw [round_eq_pack neg N D e hN']
    exact pack_normal _ _ _ h1 h2

theorem ofDyadic_normal (M e : Int) : Normal (ofDyadic M e) :=
  round_normal _ _ _ _ (by decide)

theorem log_of_normal (m : Nat) (h1 : 2 ^ 52 ≤ m) (h2 : m < 2 ^ 53) : Nat.log 2 m = 52 :=
  Nat.log_eq_of_pow_le_of_lt_pow h1 h2

/-- A dyadic number whose mantissa fits 53 bits is its own rounding. -/
theorem toRat_ofDyadic (M : Int) (j : Nat) (e : Int) (hM : M.natAbs < 2 ^ 53) :
    toRat (ofDyadic (M * 2 ^ j) e) = (M : ℚ) * (2 : ℚ) ^ j * (2 : ℚ) ^ e := by
  by_cases hM0 : M = 0
  · subst hM0
    simp [ofDyadic_zero, toRat]
  · have hpos : 0 < M.natAbs := Int.natAbs_pos.mpr hM0
    have hk1 : 2 ^ Nat.log 2 M.natAbs ≤ M.natAbs := Nat.pow_log_le_self 2 (by omega)
    have hk : Nat.log 2 M.natAbs ≤ 52 := by
      have : 2 ^ Nat.log 2 M.natAbs < 2 ^ 53 := lt_of_le_of_lt hk1 hM
      have := (Nat.pow_lt_pow_iff_right (by decide : 1 < 2)).mp this
      omega
    have h := ofDyadic_small M (e + j) hM0 hM j
    have he : e + (j : Int) - (j : Int) = e := by omega
    rw [he] at h
    have two : (2 : ℚ) ≠ 0 := by norm_num
    obtain ⟨c, hc⟩ : ∃ c : Nat, 52 = Nat.log 2 M.natAbs + c := ⟨52 - Nat.log 2 M.natAbs, by omega⟩
    have h1 : 52 - Nat.log 2 M.natAbs = c := by omega
    have h2 : e + (j : Int) + (Nat.log 2 M.natAbs : Int) - 52 = e + (j : Int) - (c : Int) := by
      omega
    rw [h, h1, h2]
    show ((M * 2 ^ c : Int) : ℚ) * (2 : ℚ) ^ (e + (j : Int) - (c : Int)) = _
    rw [zpow_sub₀ two, zpow_add₀ two]
    push_cast
    rw [zpow_natCast, zpow_natCast]
    field_simp
    ring

/-- The conversion `float64(z)` is exact when `z` is `M * 2 ^ j` with `|M| < 2 ^ 53`. -/
theorem toRat_ofInt (M : Int) (j : Nat) (hM : M.natAbs < 2 ^ 53) :
    toRat (ofInt (M * 2 ^ j)) = ((M * 2 ^ j : Int) : ℚ) := by
  unfold ofInt
  rw [toRat_ofDyadic M j 0 hM]
  push_cast
  simp

/-- Multiplying a normal value by `1` leaves it unchanged. -/
theorem mul_one_normal (x : F64) (hx : Normal x) : mul x (ofInt 1) = x := by
  have h1 : ofInt 1 = fin (2 ^ 52) (-52) := by decide
  rw [h1]
  cases x with
  | nan => exact absurd hx (by simp [Normal])
  | fin m e =>
    show ofDyadic (m * 2 ^ 52) (e + -52) = fin m e
    rcases hx with ⟨rfl, rfl⟩ | ⟨hlo, hhi⟩
    · rfl
    · have hm0 : m ≠ 0 := by
        intro h0; subst h0; simp at hlo
      have h := ofDyadic_small m e hm0 hhi 52
      rw [log_of_normal _ hlo hhi] at h
      have he : e + (-52 : Int) = e - ((52 : Nat) : Int) := by omega
      rw [he, h]
      congr 1
      · simp
      · omega

/-- The integer part is the floor of the value. -/
theorem floorInt_spec (m e : Int) :
    ((floorInt m e : Int) : ℚ) ≤ (m : ℚ) * (2 : ℚ) ^ e ∧
    (m : ℚ) * (2 : ℚ) ^ e < ((floorInt m e : Int) : ℚ) + 1 := by
  unfold floorInt
  by_cases he : 0 ≤ e
  · rw [if_pos he]
    obtain ⟨k, rfl⟩ := Int.eq_ofNat_of_zero_le he
    simp only [Int.toNat_ofNat]
    push_cast
    rw [zpow_natCast]
    constructor <;> linarith
  · rw [if_neg he]
    obtain ⟨k, hk⟩ : ∃ k : Nat, e = -(k : Int) := ⟨(-e).toNat, by omega⟩
    subst hk
    have hp : (0 : Int) < 2 ^ k := by positivity
    have h1 := Int.ediv_mul_le m (ne_of_gt hp)
    have h2 := Int.lt_ediv_add_one_mul_self m hp
    simp only [neg_neg, Int.toNat_ofNat]
    have hpq : (0 : ℚ) < (2 : ℚ) ^ k := by positivity
    have c1 : ((m / 2 ^ k : Int) : ℚ) * (2 : ℚ) ^ k ≤ (m : ℚ) := by exact_mod_cast h1
    have c2 : (m : ℚ) < (((m / 2 ^ k : Int) : ℚ) + 1) * (2 : ℚ) ^ k := by exact_mod_cast h2
    rw [zpow_neg, zpow_natCast, ← div_eq_mul_inv]
    constructor
    · rw [le_div_iff₀ hpq]; exact c1
    · rw [div_lt_iff₀ hpq]; exact c2

theorem floorInt_natAbs (m e : Int) (hm : m.natAbs < 2 ^ 53) (he : e < 0) :
    (floorInt m e).natAbs < 2 ^ 53 := by
  unfold floorInt
  rw [if_neg (by omega)]
  exact lt_of_le_of_lt (Int.natAbs_div_le_natAbs m _) hm

/-- The function `Floor` returns the integer part exactly. -/
theorem toRat_floor (m e : Int) (hm : m.natAbs < 2 ^ 53) :
    toRat (floor (fin m e)) = ((floorInt m e : Int) : ℚ) := by
  show toRat (ofInt (floorInt m e)) = _
  by_cases he : 0 ≤ e
  · have : floorInt m e = m * 2 ^ e.toNat := by unfold floorInt; rw [if_pos he]
    rw [this]
    exact toRat_ofInt m e.toNat hm
  · have h := toRat_ofInt (floorInt m e) 0 (floorInt_natAbs m e hm (by omega))
    simpa using h

theorem toRat_neg (x : F64) : toRat (neg x) = -toRat x := by
  cases x with
  | nan => simp [neg, toRat]
  | fin m e => simp [neg, toRat]

/-- Dividing an integer value by a positive integer value gives the binary64 number
nearest to the fraction. -/
theorem div_eq_ofQuot (x : F64) (k : Int) (d : Nat) (m2 e2 : Int) (hx : x.isNaN = false)
    (hxv : toRat x = (k : ℚ)) (hm2 : 0 < m2) (hyv : toRat (fin m2 e2) = (d : ℚ)) :
    div x (fin m2 e2) = ofQuot k d := by
  cases x with
  | nan => simp [isNaN] at hx
  | fin m1 e1 =>
    have hm20 : ¬ m2 = 0 := by omega
    have hp1 : (0 : ℚ) < (2 : ℚ) ^ e1 := by positivity
    have hp2 : (0 : ℚ) < (2 : ℚ) ^ e2 := by positivity
    simp only [toRat] at hxv hyv
    have hdpos : 0 < d := by
      have : (0 : ℚ) < (d : ℚ) := by
        rw [← hyv]; exact mul_pos (by exact_mod_cast hm2) hp2
      exact_mod_cast this
    simp only [div, if_neg hm20, ofQuot]
    have hs2 : decide (m2 < 0) = false := by simp; omega
    rw [hs2]
    by_cases hm1 : m1 = 0
    · subst hm1
      have hk0 : k = 0 := by
        have : (k : ℚ) = 0 := by rw [← hxv]; simp
        exact_mod_cast this
      subst hk0
      simp [round]
    · have hk0 : k ≠ 0 := by
        intro h0
        rw [h0] at hxv
        have hz : (m1 : ℚ) * (2 : ℚ) ^ e1 = 0 := by rw [hxv]; simp
        have : (m1 : ℚ) = 0 := by
          rcases mul_eq_zero.mp hz with h | h
          · exact h
          · exact absurd h (ne_of_gt hp1)
        exact hm1 (by exact_mod_cast this)
      have hsign : decide (m1 < 0) = decide (k < 0) := by
        congr 1
        apply propext
        constructor
        · intro h
          have : (k : ℚ) < 0 := by
            rw [← hxv]; exact mul_neg_of_neg_of_pos (by exact_mod_cast h) hp1
          exact_mod_cast this
        · intro h
          by_contra hn
          have h0 : (0 : ℚ) ≤ (m1 : ℚ) := by exact_mod_cast (not_lt.mp hn)
          have : (0 : ℚ) ≤ (k : ℚ) := by rw [← hxv]; exact mul_nonneg h0 (le_of_lt hp1)
          have : (0 : Int) ≤ k := by exact_mod_cast this
          omega
      have hb : (decide (m1 < 0) != false) = decide (k < 0) := by rw [← hsign]; simp
      rw [hb]
      apply round_congr _ _ _ _ _ _ _ (Int.natAbs_pos.mpr hm1) (Int.natAbs_pos.mpr hm20)
        (Int.natAbs_pos.mpr hk0) hdpos
      have two : (2 : ℚ) ≠ 0 := by norm_num
      have a1 : ((m1.natAbs : Nat) : ℚ) * (2 : ℚ) ^ e1 = ((k.natAbs : Nat) : ℚ) := by
        rw [Nat.cast_natAbs, Nat.cast_natAbs, Int.cast_abs, Int.cast_abs, ← hxv, abs_mul,
          abs_of_pos hp1]
      have a2 : ((m2.natAbs : Nat) : ℚ) * (2 : ℚ) ^ e2 = (d : ℚ) := by
        rw [Nat.cast_natAbs, Int.cast_abs, abs_of_pos (by exact_mod_cast hm2 : (0 : ℚ) < m2)]
        exact hyv
      have hm2q : ((m2.natAbs : Nat) : ℚ) ≠ 0 := by
        have := Int.natAbs_pos.mpr hm20
        positivity
      rw [← a1, ← a2, zpow_sub₀ two]
      field_simp

/-- The comparison `>=` agrees with the order of the values. -/
theorem ge_iff (x y : F64) (hx : x.isNaN = false) (hy : y.isNaN = false) :
    ge x y = true ↔ toRat y ≤ toRat x := by
  cases x with
  | nan => simp [isNaN] at hx
  | fin m1 e1 =>
    cases y with
    | nan => simp [isNaN] at hy
    | fin m2 e2 =>
      obtain ⟨h1, h2⟩ := align_value m1 e1 m2 e2
      have hp : (0 : ℚ) < (2 : ℚ) ^ (align m1 e1 m2 e2).2.2 := by positivity
      simp only [ge, decide_eq_true_eq, toRat]
      rw [← h1, ← h2]
      constructor
      · intro h
        exact mul_le_mul_of_nonneg_right (by exact_mod_cast h) hp.le
      · intro h
        have := le_of_mul_le_mul_right h hp
        exact_mod_cast this

/-- Rounding a dyadic number depends on its value only. -/
theorem ofDyadic_congr (M1 M2 : Int) (e1 e2 : Int)
    (h : (M1 : ℚ) * (2 : ℚ) ^ e1 = (M2 : ℚ) * (2 : ℚ) ^ e2) :
    ofDyadic M1 e1 = ofDyadic M2 e2 := by
  have hp1 : (0 : ℚ) < (2 : ℚ) ^ e1 := by positivity
  have hp2 : (0 : ℚ) < (2 : ℚ) ^ e2 := by positivity
  have hsign : M1 < 0 ↔ M2 < 0 := by
    constructor
    · intro h1
      by_contra hn
      have a : (M1 : ℚ) * (2 : ℚ) ^ e1 < 0 :=
        mul_neg_of_neg_of_pos (by exact_mod_cast h1) hp1
      have b : 0 ≤ (M2 : ℚ) * (2 : ℚ) ^ e2 :=
        mul_nonneg (by exact_mod_cast (not_lt.mp hn)) hp2.le
      linarith
    · intro h2
      by_contra hn
      have a : (M2 : ℚ) * (2 : ℚ) ^ e2 < 0 :=
        mul_neg_of_neg_of_pos (by exact_mod_cast h2) hp2
      have b : 0 ≤ (M1 : ℚ) * (2 : ℚ) ^ e1 :=
        mul_nonneg (by exact_mod_cast (not_lt.mp hn)) hp1.le
      linarith
  have hzero : M1 = 0 ↔ M2 = 0 := by
    constructor
    · intro h1
      subst h1
      have hz : (M2 : ℚ) * (2 : ℚ) ^ e2 = 0 := by rw [← h]; simp
      rcases mul_eq_zero.mp hz with h' | h'
      · exact_mod_cast h'
      · exact absurd h' hp2.ne'
    · intro h2
      subst h2
      have hz : (M1 : ℚ) * (2 : ℚ) ^ e1 = 0 := by rw [h]; simp
      rcases mul_eq_zero.mp hz with h' | h'
      · exact_mod_cast h'
      · exact absurd h' hp1.ne'
  by_cases h1 : M1 = 0
  · have h2 := hzero.mp h1
    subst h1
    subst h2
    rfl
  · have h2 : M2 ≠ 0 := fun h2 => h1 (hzero.mpr h2)
    unfold ofDyadic
    have hs : decide (M1 < 0) = decide (M2 < 0) := by
      congr 1
      exact propext hsign
    rw [hs]
    apply round_congr _ _ _ _ _ _ _ (Int.natAbs_pos.mpr h1) (by decide)
      (Int.natAbs_pos.mpr h2) (by decide)
    have a1 : ((M1.natAbs : Nat) : ℚ) * (2 : ℚ) ^ e1 = |(M1 : ℚ) * (2 : ℚ) ^ e1| := by
      rw [Nat.cast_natAbs, Int.cast_abs, abs_mul, abs_of_pos hp1]
    have a2 : ((M2.natAbs : Nat) : ℚ) * (2 : ℚ) ^ e2 = |(M2 : ℚ) * (2 : ℚ) ^ e2| := by
      rw [Nat.cast_natAbs, Int.cast_abs, abs_mul, abs_of_pos hp2]
    simp only [Nat.cast_one, div_one]
    rw [a1, a2, h]

/-- A difference that fits 53 bits is computed exactly. -/
theorem toRat_sub (x y : F64) (R : Int) (e : Int) (hx : x.isNaN = false)
    (hy : y.isNaN = false) (hR : R.natAbs < 2 ^ 53)
    (h : toRat x - toRat y = (R : ℚ) * (2 : ℚ) ^ e) :
    toRat (sub x y) = toRat x - toRat y := by
  cases x with
  | nan => simp [isNaN] at hx
  | fin m1 e1 =>
    cases y with
    | nan => simp [isNaN] at hy
    | fin m2 e2 =>
      obtain ⟨h1, h2⟩ := align_value m1 e1 m2 e2
      simp only [toRat] at h ⊢
      show toRat (ofDyadic ((align m1 e1 m2 e2).1 - (align m1 e1 m2 e2).2.1)
        (align m1 e1 m2 e2).2.2) = _
      have hv : (((align m1 e1 m2 e2).1 - (align m1 e1 m2 e2).2.1 : Int) : ℚ)
          * (2 : ℚ) ^ (align m1 e1 m2 e2).2.2 = (R : ℚ) * (2 : ℚ) ^ e := by
        push_cast
        rw [sub_mul, h1, h2]
        exact h
      rw [ofDyadic_congr _ R _ e hv]
      have h3 := toRat_ofDyadic R 0 e hR
      simp only [pow_zero, mul_one] at h3
      rw [h3]
      exact h.symm

/-- The fractional part that `Modf` returns for a value that is not negative is exact:
the value minus its floor. -/
theorem toRat_modf (m e : Int) (h0 : 0 ≤ m) (hm : m.natAbs < 2 ^ 53) :
    toRat (modf (fin m e)).2 = (m : ℚ) * (2 : ℚ) ^ e - ((floorInt m e : Int) : ℚ) := by
  have ht : trunc (fin m e) = floor (fin m e) := by
    show (if m < 0 then neg (floor (fin (-m) e)) else floor (fin m e)) = _
    rw [if_neg (by omega)]
  show toRat (sub (fin m e) (trunc (fin m e))) = _
  rw [ht]
  have hfl := toRat_floor m e hm
  have hex : ∃ R : Int, ∃ e2 : Int, R.natAbs < 2 ^ 53 ∧
      (m : ℚ) * (2 : ℚ) ^ e - ((floorInt m e : Int) : ℚ) = (R : ℚ) * (2 : ℚ) ^ e2 := by
    by_cases he : 0 ≤ e
    · refine ⟨0, 0, by decide, ?_⟩
      obtain ⟨k, rfl⟩ := Int.eq_ofNat_of_zero_le he
      unfold floorInt
      rw [if_pos he]
      simp only [Int.toNat_ofNat]
      push_cast
      rw [zpow_natCast]
      ring
    · obtain ⟨k, hk⟩ : ∃ k : Nat, e = -(k : Int) := ⟨(-e).toNat, by omega⟩
      subst hk
      refine ⟨m % 2 ^ k, -(k : Int), ?_, ?_⟩
      · have hp : (0 : Int) < 2 ^ k := by positivity
        have a1 := Int.emod_nonneg m (ne_of_gt hp)
        have a2 : m % 2 ^ k ≤ m := by
          have := Int.ediv_add_emod m (2 ^ k)
          have hq : 0 ≤ m / 2 ^ k := Int.ediv_nonneg h0 hp.le
          nlinarith
        omega
      · unfold floorInt
        rw [if_neg he]
        simp only [neg_neg, Int.toNat_ofNat]
        have hd := Int.ediv_add_emod m (2 ^ k)
        have hq : (m : ℚ) = (2 : ℚ) ^ k * ((m / 2 ^ k : Int) : ℚ) + ((m % 2 ^ k : Int) : ℚ) := by
          exact_mod_cast hd.symm
        have hpq : (2 : ℚ) ^ k ≠ 0 := by positivity
        rw [zpow_neg, zpow_natCast]
        field_simp
        linarith
  obtain ⟨R, e2, hR, hv⟩ := hex
  rw [toRat_sub (fin m e) (floor (fin m e)) R e2 rfl (floor_isNaN _ (by rfl)) hR
    (by rw [hfl]; exact hv), hfl]
  rfl

/-- A value that is not negative does not compare below zero. -/
theorem lt_zero_of_nonNeg (y : F64) (hy : NonNeg y) : lt y zero = false := by
  cases y with
  | nan => rfl
  | fin m e =>
    simp only [NonNeg] at hy
    simp only [lt, zero, align, zero_mul, decide_eq_false_iff_not, not_lt]
    positivity

/-- A square root of a value that is not negative is not negative. -/
theorem sqrt_nonNeg (x : F64) (hx : NonNeg x) : NonNeg (sqrt x) := by
  cases x with
  | nan => exact absurd hx (by simp [NonNeg])
  | fin m e =>
    simp only [NonNeg] at hx
    unfold sqrt
    simp only [if_neg (not_lt.mpr hx)]
    split
    · simp [NonNeg]
    · exact pack_nonNeg _ _

/-- The comparison `<` agrees with the order of the values. -/
theorem lt_iff (x y : F64) (hx : x.isNaN = false) (hy : y.isNaN = false) :
    lt x y = true ↔ toRat x < toRat y := by
  cases x with
  | nan => simp [isNaN] at hx
  | fin m1 e1 =>
    cases y with
    | nan => simp [isNaN] at hy
    | fin m2 e2 =>
      obtain ⟨h1, h2⟩ := align_value m1 e1 m2 e2
      have hp : (0 : ℚ) < (2 : ℚ) ^ (align m1 e1 m2 e2).2.2 := by positivity
      simp only [lt, decide_eq_true_eq, toRat]
      rw [← h1, ← h2]
      constructor
      · intro h
        exact mul_lt_mul_of_pos_right (by exact_mod_cast h) hp
      · intro h
        have := lt_of_mul_lt_mul_right h hp.le
        exact_mod_cast this

/-- Rounding a dyadic number is rounding its value. -/
theorem ofDyadic_eq_rn (M e : Int) : ofDyadic M e = rn ((M : ℚ) * (2 : ℚ) ^ e) := by
  have hp : (0 : ℚ) < (2 : ℚ) ^ e := by positivity
  by_cases hM : M = 0
  · subst hM
    simp [rn, ofQuot, ofDyadic, round]
  · have hq0 : (M : ℚ) * (2 : ℚ) ^ e ≠ 0 :=
      mul_ne_zero (by exact_mod_cast hM) hp.ne'
    have hnum : ((M : ℚ) * (2 : ℚ) ^ e).num ≠ 0 := Rat.num_ne_zero.mpr hq0
    have hs : decide (M < 0) = decide (((M : ℚ) * (2 : ℚ) ^ e).num < 0) := by
      congr 1
      apply propext
      rw [Rat.num_neg]
      constructor
      · intro h
        exact mul_neg_of_neg_of_pos (by exact_mod_cast h) hp
      · intro h
        by_contra hn
        have : 0 ≤ (M : ℚ) * (2 : ℚ) ^ e :=
          mul_nonneg (by exact_mod_cast (not_lt.mp hn)) hp.le
        linarith
    unfold rn ofQuot ofDyadic
    rw [hs]
    apply round_congr _ _ _ _ _ _ _ (Int.natAbs_pos.mpr hM) (by decide)
      (Int.natAbs_pos.mpr hnum) (Rat.den_pos _)
    have a1 : ((M.natAbs : Nat) : ℚ) * (2 : ℚ) ^ e = |(M : ℚ) * (2 : ℚ) ^ e| := by
      rw [Nat.cast_natAbs, Int.cast_abs, abs_mul, abs_of_pos hp]
    have a2 : ((((M : ℚ) * (2 : ℚ) ^ e).num.natAbs : Nat) : ℚ)
        / ((((M : ℚ) * (2 : ℚ) ^ e).den : Nat) : ℚ) = |(M : ℚ) * (2 : ℚ) ^ e| := by
      rw [Nat.cast_natAbs, Int.cast_abs]
      conv_rhs => rw [← Rat.num_div_den ((M : ℚ) * (2 : ℚ) ^ e)]
      rw [abs_div, Nat.abs_cast]
    simp only [Nat.cast_one, div_one, zpow_zero, mul_one]
    rw [a1, a2]

/-- Addition returns the binary64 number nearest to the exact sum. -/
theorem add_eq_rn (x y : F64) (hx : x.isNaN = false) (hy : y.isNaN = false) :
    add x y = rn (toRat x + toRat y) := by
  cases x with
  | nan => simp [isNaN] at hx
  | fin m1 e1 =>
    cases y with
    | nan => simp [isNaN] at hy
    | fin m2 e2 =>
      obtain ⟨h1, h2⟩ := align_value m1 e1 m2 e2
      show ofDyadic ((align m1 e1 m2 e2).1 + (align m1 e1 m2 e2).2.1)
        (align m1 e1 m2 e2).2.2 = _
      rw [ofDyadic_eq_rn]
      congr 1
      simp only [toRat]
      push_cast
      rw [add_mul, h1, h2]

/-- Subtraction returns the binary64 number nearest to the exact difference. -/
theorem sub_eq_rn (x y : F64) (hx : x.isNaN = false) (hy : y.isNaN = false) :
    sub x y = rn (toRat x - toRat y) := by
  cases x with
  | nan => simp [isNaN] at hx
  | fin m1 e1 =>
    cases y with
    | nan => simp [isNaN] at hy
    | fin m2 e2 =>
      obtain ⟨h1, h2⟩ := align_value m1 e1 m2 e2
      show ofDyadic ((align m1 e1 m2 e2).1 - (align m1 e1 m2 e2).2.1)
        (align m1 e1 m2 e2).2.2 = _
      rw [ofDyadic_eq_rn]
      congr 1
      simp only [toRat]
      push_cast
      rw [sub_mul, h1, h2]

/-- Multiplication returns the binary64 number nearest to the exact product. -/
theorem mul_eq_rn (x y : F64) (hx : x.isNaN = false) (hy : y.isNaN = false) :
    mul x y = rn (toRat x * toRat y) := by
  cases x with
  | nan => simp [isNaN] at hx
  | fin m1 e1 =>
    cases y with
    | nan => simp [isNaN] at hy
    | fin m2 e2 =>
      show ofDyadic (m1 * m2) (e1 + e2) = _
      rw [ofDyadic_eq_rn]
      congr 1
      simp only [toRat]
      push_cast
      rw [zpow_add₀ (by norm_num : (2 : ℚ) ≠ 0)]
      ring

/-- Division by a value other than zero returns the binary64 number nearest to the
exact quotient. -/
theorem div_eq_rn (x y : F64) (hx : x.isNaN = false) (hy : y.isNaN = false)
    (hy0 : toRat y ≠ 0) : div x y = rn (toRat x / toRat y) := by
  cases x with
  | nan => simp [isNaN] at hx
  | fin m1 e1 =>
    cases y with
    | nan => simp [isNaN] at hy
    | fin m2 e2 =>
      have hp1 : (0 : ℚ) < (2 : ℚ) ^ e1 := by positivity
      have hp2 : (0 : ℚ) < (2 : ℚ) ^ e2 := by positivity
      simp only [toRat] at hy0 ⊢
      have hm2 : m2 ≠ 0 := by
        intro h
        apply hy0
        rw [h]
        simp
      have hm2q : (m2 : ℚ) ≠ 0 := by exact_mod_cast hm2
      simp only [div, if_neg hm2]
      by_cases hm1 : m1 = 0
      · subst hm1
        simp [rn, ofQuot, round]
      · have hm1q : (m1 : ℚ) ≠ 0 := by exact_mod_cast hm1
        have hq0 : (m1 : ℚ) * (2 : ℚ) ^ e1 / ((m2 : ℚ) * (2 : ℚ) ^ e2) ≠ 0 :=
          div_ne_zero (mul_ne_zero hm1q hp1.ne') (mul_ne_zero hm2q hp2.ne')
        generalize hq : (m1 : ℚ) * (2 : ℚ) ^ e1 / ((m2 : ℚ) * (2 : ℚ) ^ e2) = q at hq0 ⊢
        have hnum : q.num ≠ 0 := Rat.num_ne_zero.mpr hq0
        have habs : |q| = ((m1.natAbs : Nat) : ℚ) / ((m2.natAbs : Nat) : ℚ)
            * (2 : ℚ) ^ (e1 - e2) := by
          rw [← hq, Nat.cast_natAbs, Nat.cast_natAbs, Int.cast_abs, Int.cast_abs, abs_div,
            abs_mul, abs_mul, abs_of_pos hp1, abs_of_pos hp2,
            zpow_sub₀ (by norm_num : (2 : ℚ) ≠ 0)]
          have : |(m2 : ℚ)| ≠ 0 := abs_ne_zero.mpr hm2q
          field_simp
        have hs : (decide (m1 < 0) != decide (m2 < 0)) = decide (q.num < 0) := by
          have hq2 : q = (m1 : ℚ) / (m2 : ℚ) * ((2 : ℚ) ^ e1 / (2 : ℚ) ^ e2) := by
            rw [← hq]
            field_simp
          have hpp : (0 : ℚ) < (2 : ℚ) ^ e1 / (2 : ℚ) ^ e2 := div_pos hp1 hp2
          have hiff : q < 0 ↔ (m1 : ℚ) / (m2 : ℚ) < 0 := by
            rw [hq2]
            constructor
            · intro h
              by_contra hn
              have := mul_nonneg (not_lt.mp hn) hpp.le
              linarith
            · intro h
              exact mul_neg_of_neg_of_pos h hpp
          rw [show decide (q.num < 0) = decide (q < 0) from by
            congr 1
            exact propext Rat.num_neg]
          rcases lt_or_gt_of_ne hm1 with a | a <;> rcases lt_or_gt_of_ne hm2 with b | b
          · have a2 : (m1 : ℚ) < 0 := by exact_mod_cast a
            have b2 : (m2 : ℚ) < 0 := by exact_mod_cast b
            have : ¬ q < 0 := by
              rw [hiff]
              exact not_lt.mpr (le_of_lt (div_pos_of_neg_of_neg a2 b2))
            simp [a, b, this]
          · have a2 : (m1 : ℚ) < 0 := by exact_mod_cast a
            have b2 : (0 : ℚ) < (m2 : ℚ) := by exact_mod_cast b
            have : q < 0 := hiff.mpr (div_neg_of_neg_of_pos a2 b2)
            have b3 : ¬ m2 < 0 := by omega
            simp [a, b3, this]
          · have a2 : (0 : ℚ) < (m1 : ℚ) := by exact_mod_cast a
            have b2 : (m2 : ℚ) < 0 := by exact_mod_cast b
            have : q < 0 := hiff.mpr (div_neg_of_pos_of_neg a2 b2)
            have a3 : ¬ m1 < 0 := by omega
            simp [a3, b, this]
          · have a2 : (0 : ℚ) < (m1 : ℚ) := by exact_mod_cast a
            have b2 : (0 : ℚ) < (m2 : ℚ) := by exact_mod_cast b
            have : ¬ q < 0 := by
              rw [hiff]
              exact not_lt.mpr (le_of_lt (div_pos a2 b2))
            have a3 : ¬ m1 < 0 := by omega
            have b3 : ¬ m2 < 0 := by omega
            simp [a3, b3, this]
        unfold rn ofQuot
        rw [hs]
        apply round_congr _ _ _ _ _ _ _ (Int.natAbs_pos.mpr hm1) (Int.natAbs_pos.mpr hm2)
          (Int.natAbs_pos.mpr hnum) (Rat.den_pos _)
        have a2 : (((q.num.natAbs : Nat) : ℚ)) / ((q.den : Nat) : ℚ) = |q| := by
          rw [Nat.cast_natAbs, Int.cast_abs]
          conv_rhs => rw [← Rat.num_div_den q]
          rw [abs_div, Nat.abs_cast]
        simp only [zpow_zero, mul_one]
        rw [a2, habs]

end F64

/-! ## The statistics -/

theorem foldl_add_ofInt (s : List Int) (acc : Int)
    (h : acc.natAbs + (s.map Int.natAbs).sum < 2 ^ 53) :
    (s.map F64.ofInt).foldl (fun sum n => F64.add sum n) (F64.ofInt acc)
      = F64.ofInt (acc + s.sum) := by
  induction s generalizing acc with
  | nil => simp
  | cons x xs ih =>
    simp only [List.map_cons, List.sum_cons, List.foldl_cons] at h ⊢
    have hadd : (acc + x).natAbs ≤ acc.natAbs + x.natAbs := Int.natAbs_add_le acc x
    rw [F64.add_ofInt acc x (by omega) (by omega) (by omega), ih (acc + x) (by omega)]
    congr 1
    ring

theorem natAbs_sum_le (s : List Int) : s.sum.natAbs ≤ (s.map Int.natAbs).sum := by
  induction s with
  | nil => simp
  | cons x xs ih =>
    simp only [List.map_cons, List.sum_cons]
    have := Int.natAbs_add_le x xs.sum
    omega

/-- The sum entry of a non-empty sequence is its integer sum, as long as the absolute
values of its elements add up to less than `2 ^ 53` (the range in which binary64
addition of integers is exact). -/
theorem sum_entry_exact (t : Target) (s : List Int) (hne : s ≠ [])
    (h : (s.map Int.natAbs).sum < 2 ^ 53) :
    toInt t (stats.Sum (stats.LoadRawData s)).1 = s.sum := by
  have hlen : (stats.LoadRawData s).length ≠ 0 := by
    simp [stats.LoadRawData, hne]
  unfold stats.Sum
  rw [if_neg hlen]
  have hz : F64.zero = F64.ofInt 0 := by decide
  simp only [stats.LoadRawData, hz]
  rw [foldl_add_ofInt s 0 (by simpa using h)]
  have := natAbs_sum_le s
  rw [zero_add]
  exact toInt_ofInt t _ (by omega)

/-- The sum entry of an empty sequence is `int(NaN)`: `Sum` returns NaN (with an error
that the handler drops). -/
theorem sum_entry_of_empty (t : Target) :
    toInt t (stats.Sum (stats.LoadRawData [])).1 = t.ofNaN := rfl

/-- The library's `StandardDeviation` is the standard deviation with divisor `N`. -/
theorem StandardDeviation_eq (xs : List F64) :
    (stats.StandardDeviation xs).1 = stdDevDivN xs := by
  unfold stats.StandardDeviation stats.StandardDeviationPopulation
  by_cases hlen : xs.length = 0
  · have : xs = [] := List.length_eq_zero.mp hlen
    subst this
    decide
  · rw [if_neg hlen]
    unfold stats.PopulationVariance stats._variance
    rw [if_neg hlen]
    simp only [stats.Mean, if_neg hlen, stats.Sum]
    unfold stdDevDivN fsum
    simp only [List.foldl_map, mul_zero, sub_zero]

theorem foldl_add_isNaN (xs : List F64) (acc : F64) (hacc : acc.isNaN = false)
    (h : ∀ x ∈ xs, x.isNaN = false) :
    (xs.foldl (fun sum n => F64.add sum n) acc).isNaN = false := by
  induction xs generalizing acc with
  | nil => exact hacc
  | cons x xs ih =>
    rw [List.foldl_cons]
    exact ih _ (F64.add_isNaN _ _ hacc (h x (List.mem_cons_self _ _)))
      (fun y hy => h y (List.mem_cons_of_mem _ hy))

theorem foldl_add_nonNeg (xs : List F64) (acc : F64) (hacc : F64.NonNeg acc)
    (h : ∀ x ∈ xs, F64.NonNeg x) :
    F64.NonNeg (xs.foldl F64.add acc) := by
  induction xs generalizing acc with
  | nil => exact hacc
  | cons x xs ih =>
    rw [List.foldl_cons]
    exact ih _ (F64.add_nonNeg _ _ hacc (h x (List.mem_cons_self _ _)))
      (fun y hy => h y (List.mem_cons_of_mem _ hy))

/-- The standard deviation of a non-empty list of finite values is not NaN. -/
theorem stdDevDivN_isNaN (xs : List F64) (hne : xs ≠ []) (h : ∀ x ∈ xs, x.isNaN = false) :
    (stdDevDivN xs).isNaN = false := by
  have hlen : 0 < xs.length := List.length_pos.mpr hne
  obtain ⟨m, e, hN, hm⟩ := F64.ofInt_pos xs.length hlen
  unfold stdDevDivN
  simp only [hN]
  have hsum : (fsum xs).isNaN = false := foldl_add_isNaN xs _ rfl h
  have hmean : (F64.div (fsum xs) (F64.fin m e)).isNaN = false := F64.div_isNaN _ m e hsum hm
  apply F64.sqrt_isNaN
  apply F64.div_nonNeg _ m e _ hm
  unfold fsum
  apply foldl_add_nonNeg _ _ (by simp [F64.NonNeg, F64.zero])
  intro y hy
  obtain ⟨x, hx, rfl⟩ := List.mem_map.mp hy
  exact F64.mul_self_nonNeg _ (F64.sub_isNaN _ _ (h x hx) hmean)

/-- The library's `Round` returns NaN only for NaN. -/
theorem Round_isNaN (x : F64) (hx : x.isNaN = false) : (stats.Round x 3).1.isNaN = false := by
  obtain ⟨m, e, hp, hm⟩ := F64.ofInt_pos 1000 (by decide)
  have hp10 : stats.pow10 3 = F64.fin m e := hp
  have hround : ∀ y : F64, y.isNaN = false →
      (F64.div (if F64.ge (F64.modf (F64.mul y (F64.fin m e))).2 (F64.ofQuot 1 2) = true
        then F64.ceil (F64.mul y (F64.fin m e))
        else F64.floor (F64.mul y (F64.fin m e))) (F64.fin m e)).isNaN = false := by
    intro y hy
    apply F64.div_isNaN _ m e _ hm
    have hdig := F64.mul_isNaN y (F64.fin m e) hy rfl
    split
    · exact F64.ceil_isNaN _ hdig
    · exact F64.floor_isNaN _ hdig
  unfold stats.Round
  simp only [hx, Bool.false_eq_true, if_false, hp10]
  by_cases hlt : F64.lt x F64.zero = true
  · simp only [hlt, if_true]
    exact F64.mul_isNaN _ _ (hround _ (F64.mul_isNaN _ _ hx (F64.ofInt_isNaN _)))
      (F64.ofInt_isNaN _)
  · simp only [hlt, if_false]
    exact F64.mul_isNaN _ _ (hround _ hx) (F64.ofInt_isNaN _)

/-- The binary64 values of integers are not NaN. -/
theorem ofInt_mem_isNaN (s : List Int) : ∀ x ∈ s.map F64.ofInt, x.isNaN = false := by
  intro x hx
  obtain ⟨z, _, rfl⟩ := List.mem_map.mp hx
  exact F64.ofInt_isNaN z

/-- The standard deviation of a non-empty list of finite values is not negative. -/
theorem stdDevDivN_nonNeg (xs : List F64) (hne : xs ≠ []) (h : ∀ x ∈ xs, x.isNaN = false) :
    F64.NonNeg (stdDevDivN xs) := by
  have hlen : 0 < xs.length := List.length_pos.mpr hne
  obtain ⟨m, e, hN, hm⟩ := F64.ofInt_pos xs.length hlen
  unfold stdDevDivN
  simp only [hN]
  have hsum : (fsum xs).isNaN = false := foldl_add_isNaN xs _ rfl h
  have hmean : (F64.div (fsum xs) (F64.fin m e)).isNaN = false := F64.div_isNaN _ m e hsum hm
  apply F64.sqrt_nonNeg
  apply F64.div_nonNeg _ m e _ hm
  unfold fsum
  apply foldl_add_nonNeg _ _ (by simp [F64.NonNeg, F64.zero])
  intro y hy
  obtain ⟨x, hx, rfl⟩ := List.mem_map.mp hy
  exact F64.mul_self_nonNeg _ (F64.sub_isNaN _ _ (h x hx) hmean)

set_option maxRecDepth 100000 in
/-- What `Round` to 3 places returns for a finite value `x` that is not negative: the
binary64 number nearest to `k / 1000`, where `k` is the binary64 product `x * 1000`
rounded to the nearest integer, a half rounded up. -/
theorem Round_nearest (x : F64) (hx : F64.NonNeg x) :
    ∃ k : Int, (stats.Round x 3).1 = F64.ofQuot k 1000 ∧
      RoundsTo (F64.toRat (F64.mul x (F64.ofInt 1000))) k := by
  have hxn : x.isNaN = false := F64.nonNeg_isNaN x hx
  have hpos : F64.lt x F64.zero = false := F64.lt_zero_of_nonNeg x hx
  obtain ⟨m2, e2, h1000, hm2⟩ := F64.ofInt_pos 1000 (by decide)
  have hp : stats.pow10 3 = F64.fin m2 e2 := h1000
  have hv1000 : F64.toRat (F64.fin m2 e2) = ((1000 : Nat) : ℚ) := by
    have h : F64.ofInt ((1000 : Nat) : Int) = F64.ofInt (1000 * 2 ^ 0) := by norm_num
    rw [← h1000, h, F64.toRat_ofInt 1000 0 (by decide)]
    norm_num
  have h1000' : F64.ofInt 1000 = F64.fin m2 e2 := h1000
  have hdn : F64.Normal (F64.mul x (F64.fin m2 e2)) := by
    cases x with
    | nan => simp [F64.isNaN] at hxn
    | fin mx ex => exact F64.ofDyadic_normal _ _
  have hd0 : F64.NonNeg (F64.mul x (F64.fin m2 e2)) := by
    cases x with
    | nan => simp [F64.isNaN] at hxn
    | fin mx ex =>
      simp only [F64.NonNeg] at hx
      exact F64.ofDyadic_nonNeg _ _ (mul_nonneg hx hm2.le)
  have hR : (stats.Round x 3).1 =
      F64.mul (F64.div (if F64.ge (F64.modf (F64.mul x (F64.fin m2 e2))).2 (F64.ofQuot 1 2) = true
        then F64.ceil (F64.mul x (F64.fin m2 e2)) else F64.floor (F64.mul x (F64.fin m2 e2)))
        (F64.fin m2 e2)) (F64.ofInt 1) := by
    unfold stats.Round
    simp only [hxn, hpos, hp, Bool.false_eq_true, if_false]
  rw [hR, h1000']
  generalize F64.mul x (F64.fin m2 e2) = digit at hdn hd0 ⊢
  cases digit with
  | nan => exact absurd hdn (by simp [F64.Normal])
  | fin md ed =>
    simp only [F64.NonNeg] at hd0
    have hmd : md.natAbs < 2 ^ 53 := by
      rcases hdn with ⟨h0, _⟩ | ⟨_, h⟩
      · subst h0; simp
      · exact h
    have hmdn : (-md).natAbs < 2 ^ 53 := by rw [Int.natAbs_neg]; exact hmd
    have key : ∀ (r : F64) (kz : Int), r.isNaN = false → F64.toRat r = (kz : ℚ) →
        F64.mul (F64.div r (F64.fin m2 e2)) (F64.ofInt 1) = F64.ofQuot kz 1000 := by
      intro r kz hr hv
      rw [F64.div_eq_ofQuot r kz 1000 m2 e2 hr hv hm2 hv1000]
      exact F64.mul_one_normal _ (F64.round_normal _ _ _ _ (by decide))
    -- the fractional part is exact, and so is its comparison with one half
    have hfrac := F64.toRat_modf md ed hd0 hmd
    have hhalf : F64.toRat (F64.ofQuot 1 2) = 1 / 2 := by
      have : F64.ofQuot 1 2 = F64.fin (2 ^ 52) (-53) := by decide
      rw [this]
      simp only [F64.toRat]
      norm_num
    have hfn : (F64.modf (F64.fin md ed)).2.isNaN = false :=
      F64.sub_isNaN _ _ rfl (by
        show (if md < 0 then F64.neg (F64.floor (F64.fin (-md) ed))
          else F64.floor (F64.fin md ed)).isNaN = false
        rw [if_neg (by omega)]
        exact F64.floor_isNaN _ (by rfl))
    have hge := F64.ge_iff (F64.modf (F64.fin md ed)).2 (F64.ofQuot 1 2) hfn (by decide)
    rw [hhalf, hfrac] at hge
    obtain ⟨f1, f2⟩ := F64.floorInt_spec md ed
    obtain ⟨g1, g2⟩ := F64.floorInt_spec (-md) ed
    have hd0q : (0 : ℚ) ≤ (md : ℚ) * (2 : ℚ) ^ ed :=
      mul_nonneg (by exact_mod_cast hd0) (by positivity)
    by_cases hc : F64.ge (F64.modf (F64.fin md ed)).2 (F64.ofQuot 1 2) = true
    · rw [if_pos hc]
      have hc2 := hge.mp hc
      refine ⟨-F64.floorInt (-md) ed, key _ _ (F64.ceil_isNaN _ (by rfl)) ?_, ?_⟩
      · simp only [F64.ceil, F64.toRat_neg]
        have : F64.neg (F64.fin md ed) = F64.fin (-md) ed := rfl
        rw [this, F64.toRat_floor _ _ hmdn]
        push_cast
        ring
      · push_cast at g1 g2
        -- the ceiling is at most one above the floor
        have hle : -F64.floorInt (-md) ed ≤ F64.floorInt md ed + 1 := by
          have : ((-F64.floorInt (-md) ed : Int) : ℚ) < ((F64.floorInt md ed + 2 : Int) : ℚ) := by
            push_cast
            linarith
          have := Int.cast_lt.mp this
          omega
        have hle2 : ((-F64.floorInt (-md) ed : Int) : ℚ) ≤ (F64.floorInt md ed : ℚ) + 1 := by
          exact_mod_cast hle
        simp only [RoundsTo, F64.toRat]
        push_cast at hle2 ⊢
        have hk : (md : ℚ) * (2 : ℚ) ^ ed ≤ -(F64.floorInt (-md) ed : ℚ) := by linarith
        have a1 : |(-(F64.floorInt (-md) ed : ℚ)) - (md : ℚ) * (2 : ℚ) ^ ed|
            = -(F64.floorInt (-md) ed : ℚ) - (md : ℚ) * (2 : ℚ) ^ ed :=
          abs_of_nonneg (by linarith)
        rw [a1]
        refine ⟨by linarith, fun _ => ?_⟩
        rw [abs_of_nonneg hd0q, abs_of_nonneg (by linarith)]
        exact hk
    · rw [if_neg hc]
      have hc2 : ¬ (1 / 2 : ℚ) ≤ (md : ℚ) * (2 : ℚ) ^ ed - (F64.floorInt md ed : ℚ) :=
        fun h => hc (hge.mpr h)
      refine ⟨F64.floorInt md ed, key _ _ (F64.floor_isNaN _ (by rfl)) ?_, ?_⟩
      · exact F64.toRat_floor _ _ hmd
      · simp only [RoundsTo, F64.toRat]
        have a1 : |(F64.floorInt md ed : ℚ) - (md : ℚ) * (2 : ℚ) ^ ed|
            = (md : ℚ) * (2 : ℚ) ^ ed - (F64.floorInt md ed : ℚ) := by
          rw [abs_sub_comm]
          exact abs_of_nonneg (by linarith)
        rw [a1]
        refine ⟨by linarith, fun h => ?_⟩
        exact absurd (le_of_eq h.symm) hc2

/-- The sum entries of non-empty sequences are their integer sums, as long as the
absolute values in each sequence add up to less than `2 ^ 53`. -/
theorem intSeqsSums_exact (t : Target) (n : Nat) (seqs : Nat → List Int)
    (h : ∀ i, i < n → seqs i ≠ [] ∧ ((seqs i).map Int.natAbs).sum < 2 ^ 53) :
    intSeqsSums t ((List.range n).map seqs) = (List.range n).map (fun i => (seqs i).sum) := by
  unfold intSeqsSums
  rw [List.map_map]
  apply List.map_congr_left
  intro i hi
  have hi2 := List.mem_range.mp hi
  exact sum_entry_exact t (seqs i) (h i hi2).1 (h i hi2).2

/-- At most one number is the exact standard deviation rounded to 3 decimal places. -/
theorem ExactStdDev3_unique (s : List Int) (k1 k2 : Nat) (h1 : ExactStdDev3 s k1)
    (h2 : ExactStdDev3 s k2) : k1 = k2 := by
  have key : ∀ a b : Nat, ExactStdDev3 s a → ExactStdDev3 s b → ¬ a < b := by
    intro a b ha hb hab
    obtain ⟨_, ha2⟩ := ha
    obtain ⟨hb1, _⟩ := hb
    rcases hb1 with hb0 | hb1
    · omega
    · have hab2 : (a : ℚ) + 1 ≤ (b : ℚ) := by exact_mod_cast hab
      have ha0 : (0 : ℚ) ≤ (a : ℚ) := by positivity
      have : ((a : ℚ) + 1 / 2) ^ 2 ≤ ((b : ℚ) - 1 / 2) ^ 2 :=
        pow_le_pow_left₀ (by linarith) (by linarith) 2
      linarith
  have := key k1 k2 h1 h2
  have := key k2 k1 h2 h1
  omega

/-- The deviation stored for a non-empty sequence is not NaN. -/
theorem roundedStdDev_isNaN (s : List Int) (hne : s ≠ []) : (roundedStdDev s).isNaN = false := by
  unfold roundedStdDev
  rw [StandardDeviation_eq]
  apply Round_isNaN
  apply stdDevDivN_isNaN
  · simpa [stats.LoadRawData] using hne
  · intro x hx
    obtain ⟨z, _, rfl⟩ := List.mem_map.mp hx
    exact F64.ofInt_isNaN z

set_option maxRecDepth 100000 in
/-- The rounded standard deviation of up to ten copies of `int(NaN)` is `0`, for each
of the values `int(NaN)` takes on 64-bit targets. -/
theorem stdDev_of_equal_sums (c : Int) (m : Nat) (hc : c = 0 ∨ c = -2 ^ 63 ∨ c = 2 ^ 63 - 1)
    (h1 : 1 ≤ m) (h2 : m ≤ 10) :
    (stats.Round (stats.StandardDeviation (stats.LoadRawData (List.replicate m c))).1 3).1
      = F64.zero := by
  rcases hc with rfl | rfl | rfl <;> interval_cases m <;> decide

/-! ## The fan-out -/

theorem map_range_congr {α : Type} (f g : Nat → α) (n : Nat) (h : ∀ i, i < n → f i = g i) :
    (List.range n).map f = (List.range n).map g := by
  apply List.map_congr_left
  intro i hi
  exact h i (List.mem_range.mp hi)

theorem set_map_range {α : Type} (f : Nat → α) (n j : Nat) (v : α) :
    ((List.range n).map f).set j v = (List.range n).map (fun i => if i = j then v else f i) := by
  apply List.ext_getElem?
  intro i
  by_cases hi : i < n
  · by_cases hij : j = i
    · subst hij
      simp [List.getElem?_set, hi]
    · have : ¬ i = j := fun h => hij h.symm
      simp [List.getElem?_set, hi, hij, this]
  · have hn : n ≤ i := Nat.le_of_not_lt hi
    have hr : (List.range n)[i]? = none := List.getElem?_eq_none (by simpa using hn)
    have hji : ¬ (j = i ∧ j < n) := by omega
    by_cases hij : j = i
    · subst hij
      simp [List.getElem?_set, hi, hr]
    · simp [List.getElem?_set, hr, hij]

theorem map_range_const {α : Type} (n : Nat) (x : α) :
    (List.range n).map (fun _ => x) = List.replicate n x := by
  apply List.ext_getElem?
  intro i
  by_cases hi : i < n
  · simp [hi, List.getElem?_replicate]
  · have hr : (List.range n)[i]? = none := List.getElem?_eq_none (by simpa using hi)
    simp [hi, hr, List.getElem?_replicate]

theorem countP_range_bump (c : Nat → Nat) (n j : Nat) (hj : j < n) (h0 : c j = 0) :
    (List.range n).countP (fun i => decide (bump c j i ≠ 0))
      = (List.range n).countP (fun i => decide (c i ≠ 0)) + 1 := by
  induction n with
  | zero => omega
  | succ n ih =>
    rw [List.range_succ, List.countP_append, List.countP_append]
    by_cases hjn : j < n
    · rw [ih hjn]
      have : bump c j n = c n := by simp [bump]; omega
      simp [List.countP_cons, this]
      omega
    · have hjn2 : j = n := by omega
      subst hjn2
      have h1 : (List.range j).countP (fun i => decide (bump c j i ≠ 0))
          = (List.range j).countP (fun i => decide (c i ≠ 0)) := by
        apply List.countP_congr
        intro i hi
        have : i ≠ j := by have := List.mem_range.mp hi; omega
        simp [bump, this]
      rw [h1]
      simp [List.countP_cons, bump, h0]

theorem stateAt_bump_of_ge (r : Nat → Fetched) (n : Nat) (c : Nat → Nat) (j : Nat) (hj : n ≤ j) :
    stateAt r n (bump c j) = stateAt r n c := by
  have hb : ∀ i, i < n → bump c j i = c i := by
    intro i hi
    have : i ≠ j := by omega
    simp [bump, this]
  unfold stateAt
  congr 1
  · exact map_range_congr _ _ n (fun i hi => by rw [hb i hi])
  · exact map_range_congr _ _ n (fun i hi => by rw [hb i hi])
  · exact map_range_congr _ _ n (fun i hi => by rw [hb i hi])
  · apply List.countP_congr
    intro i hi
    rw [hb i (List.mem_range.mp hi)]

theorem stateAt_pcs_get (r : Nat → Fetched) (n : Nat) (c : Nat → Nat) (j : Nat) :
    (stateAt r n c).pcs[j]? = if j < n then some (pcAfter (r j) (c j)) else none := by
  by_cases hj : j < n
  · simp [stateAt, hj]
  · have hr : (List.range n)[j]? = none := List.getElem?_eq_none (by simpa using hj)
    simp [stateAt, hj, hr]

theorem map_bump_same {α : Type} (f : Nat → Nat → α) (n : Nat) (c : Nat → Nat) (j : Nat)
    (hv : f j (c j + 1) = f j (c j)) :
    (List.range n).map (fun i => f i (c i)) = (List.range n).map (fun i => f i (bump c j i)) := by
  apply map_range_congr
  intro i _
  by_cases hij : i = j
  · subst hij; simp [bump, hv]
  · simp [bump, hij]

theorem map_bump_set {α : Type} (f : Nat → Nat → α) (n : Nat) (c : Nat → Nat) (j : Nat) (v : α)
    (hv : v = f j (c j + 1)) :
    ((List.range n).map (fun i => f i (c i))).set j v
      = (List.range n).map (fun i => f i (bump c j i)) := by
  rw [set_map_range]
  apply map_range_congr
  intro i _
  by_cases hij : i = j
  · subst hij; simp [bump, hv]
  · simp [bump, hij]

theorem countP_bump_same (c : Nat → Nat) (n j : Nat) (h : c j ≠ 0) :
    (List.range n).countP (fun i => decide (bump c j i ≠ 0))
      = (List.range n).countP (fun i => decide (c i ≠ 0)) := by
  apply List.countP_congr
  intro i _
  by_cases hij : i = j
  · subst hij; simp [bump, h]
  · simp [bump, hij]

theorem step_stateAt (r : Nat → Fetched) (n : Nat) (c : Nat → Nat) (j : Nat) :
    step (fun i => Call.returns (r i)) (stateAt r n c) j = stateAt r n (bump c j) := by
  by_cases hj : j < n
  · have hpc := stateAt_pcs_get r n c j
    rw [if_pos hj] at hpc
    have hpan : (stateAt r n c).panicked = false := rfl
    unfold step
    rw [hpc, hpan]
    simp only [Bool.false_eq_true, if_false]
    rcases hr : r j with msg | s
    · rcases hc : c j with _ | k
      · have hp : pcAfter (Except.error msg) 0 = Pc.fetch := rfl
        simp only [hp, stateAt]
        congr 1
        · exact map_bump_same (fun i k => seqAfter (r i) k) n c j (by simp [seqAfter, hr])
        · exact map_bump_same (fun i k => sdAfter (r i) k) n c j (by simp [sdAfter, hr])
        · exact map_bump_set (fun i k => pcAfter (r i) k) n c j _ (by simp [pcAfter, hr])
        · exact (countP_range_bump c n j hj hc).symm
      · have hp : pcAfter (Except.error msg) (k + 1) = Pc.done := rfl
        simp only [hp, stateAt]
        congr 1
        · exact map_bump_same (fun i k => seqAfter (r i) k) n c j (by simp [seqAfter, hr])
        · exact map_bump_same (fun i k => sdAfter (r i) k) n c j (by simp [sdAfter, hr])
        · exact map_bump_same (fun i k => pcAfter (r i) k) n c j (by simp [pcAfter, hr, hc])
        · exact (countP_bump_same c n j (by omega)).symm
    · rcases hc : c j with _ | _ | _ | k
      · have hp : pcAfter (Except.ok s) 0 = Pc.fetch := rfl
        simp only [hp, stateAt]
        congr 1
        · exact map_bump_same (fun i k => seqAfter (r i) k) n c j (by simp [seqAfter, hr, hc])
        · exact map_bump_same (fun i k => sdAfter (r i) k) n c j (by simp [sdAfter, hr, hc])
        · exact map_bump_set (fun i k => pcAfter (r i) k) n c j _ (by simp [pcAfter, hr, hc])
        · exact (countP_range_bump c n j hj hc).symm
      · have hp : pcAfter (Except.ok s) (0 + 1) = Pc.storeSeq s := rfl
        simp only [hp, stateAt]
        congr 1
        · exact map_bump_set (fun i k => seqAfter (r i) k) n c j _ (by simp [seqAfter, hr, hc])
        · exact map_bump_same (fun i k => sdAfter (r i) k) n c j (by simp [sdAfter, hr, hc])
        · exact map_bump_set (fun i k => pcAfter (r i) k) n c j _ (by simp [pcAfter, hr, hc])
        · exact (countP_bump_same c n j (by omega)).symm
      · have hp : pcAfter (Except.ok s) (0 + 1 + 1) = Pc.storeStdDev s := rfl
        simp only [hp, stateAt]
        congr 1
        · exact map_bump_same (fun i k => seqAfter (r i) k) n c j (by simp [seqAfter, hr, hc])
        · exact map_bump_set (fun i k => sdAfter (r i) k) n c j _ (by simp [sdAfter, hr, hc])
        · exact map_bump_set (fun i k => pcAfter (r i) k) n c j _ (by simp [pcAfter, hr, hc])
        · exact (countP_bump_same c n j (by omega)).symm
      · have hp : pcAfter (Except.ok s) (k + 1 + 1 + 1) = Pc.done := rfl
        simp only [hp, stateAt]
        congr 1
        · exact map_bump_same (fun i k => seqAfter (r i) k) n c j (by simp [seqAfter, hr, hc])
        · exact map_bump_same (fun i k => sdAfter (r i) k) n c j (by simp [sdAfter, hr, hc])
        · exact map_bump_same (fun i k => pcAfter (r i) k) n c j (by simp [pcAfter, hr, hc])
        · exact (countP_bump_same c n j (by omega)).symm
  · have hj2 : n ≤ j := Nat.le_of_not_lt hj
    rw [stateAt_bump_of_ge r n c j hj2]
    unfold step
    rw [stateAt_pcs_get, if_neg hj]
    simp [stateAt]

theorem init_eq_stateAt (r : Nat → Fetched) (n : Nat) :
    Shared.init n = stateAt r n (fun _ => 0) := by
  unfold Shared.init stateAt
  have h1 : ∀ {α : Type} (x : α), List.replicate n x = (List.range n).map (fun _ => x) := by
    intro α x
    apply List.ext_getElem?
    intro i
    by_cases hi : i < n
    · simp [hi, List.getElem?_replicate]
    · have hr : (List.range n)[i]? = none := List.getElem?_eq_none (by simpa using hi)
      simp [hi, hr, List.getElem?_replicate]
  congr 1
  · rw [h1]; apply map_range_congr; intro i _; cases r i <;> simp [seqAfter]
  · rw [h1]; apply map_range_congr; intro i _; cases r i <;> simp [sdAfter]
  · rw [h1]; apply map_range_congr; intro i _; cases r i <;> simp [pcAfter]
  · simp

theorem foldl_step_stateAt (r : Nat → Fetched) (n : Nat) (sched : List Nat) (c : Nat → Nat) :
    sched.foldl (step (fun i => Call.returns (r i))) (stateAt r n c)
      = stateAt r n (fun i => c i + sched.count i) := by
  induction sched generalizing c with
  | nil => simp
  | cons j rest ih =>
    rw [List.foldl_cons, step_stateAt, ih]
    congr 1
    funext i
    by_cases hij : i = j
    · subst hij; simp [bump]; omega
    · have : ¬ j = i := fun h => hij h.symm
      simp [bump, hij, List.count_cons, this]

/-- The state of the fan-out is a function of how many steps each worker has taken. -/
theorem runWorkers_eq (r : Nat → Fetched) (n : Nat) (sched : List Nat) :
    runWorkers (fun i => Call.returns (r i)) n sched
      = stateAt r n (fun i => sched.count i) := by
  unfold runWorkers
  rw [init_eq_stateAt r n, foldl_step_stateAt]
  simp

theorem allDone_stateAt (r : Nat → Fetched) (n : Nat) (c : Nat → Nat) :
    (stateAt r n c).allDone = true ↔ ∀ i, i < n → pcAfter (r i) (c i) = Pc.done := by
  simp [Shared.allDone, stateAt, List.all_eq_true]

theorem slots_of_done (r : Fetched) (k : Nat) (h : pcAfter r k = Pc.done) :
    seqAfter r k = seqSlot r ∧ sdAfter r k = sdSlot r := by
  rcases r with msg | s
  · simp [seqAfter, sdAfter, seqSlot, sdSlot]
  · rcases k with _ | _ | _ | k
    · simp [pcAfter] at h
    · simp [pcAfter] at h
    · simp [pcAfter] at h
    · simp [seqAfter, sdAfter, seqSlot, sdSlot]

theorem pcAfter_done_of_three (r : Fetched) (k : Nat) (h : 3 ≤ k) : pcAfter r k = Pc.done := by
  obtain ⟨k, rfl⟩ : ∃ m, k = m + 3 := ⟨k - 3, by omega⟩
  cases r <;> simp [pcAfter]

/-- After the join both slices hold, at every index, the slot values of that index's
fetch, and the fetcher has been called once per worker. -/
theorem joined_state (r : Nat → Fetched) (n : Nat) (sched : List Nat)
    (h : (runWorkers (fun i => Call.returns (r i)) n sched).allDone = true) :
    runWorkers (fun i => Call.returns (r i)) n sched =
      { intSeqs := (List.range n).map (fun i => seqSlot (r i))
        stdDevsInSeqs := (List.range n).map (fun i => sdSlot (r i))
        pcs := List.replicate n Pc.done
        panicked := false
        fetchCalls := n } := by
  rw [runWorkers_eq] at h ⊢
  rw [allDone_stateAt] at h
  unfold stateAt
  congr 1
  · exact map_range_congr _ _ n (fun i hi => (slots_of_done _ _ (h i hi)).1)
  · exact map_range_congr _ _ n (fun i hi => (slots_of_done _ _ (h i hi)).2)
  · apply List.ext_getElem?
    intro i
    by_cases hi : i < n
    · simp [hi, List.getElem?_replicate, h i hi]
    · have hr : (List.range n)[i]? = none := List.getElem?_eq_none (by simpa using hi)
      simp [hi, hr, List.getElem?_replicate]
  · have : (List.range n).countP (fun i => decide (sched.count i ≠ 0)) = (List.range n).length := by
      rw [List.countP_eq_length]
      intro i hi
      have := h i (List.mem_range.mp hi)
      rcases hk : sched.count i with _ | k
      · rw [hk] at this; cases hr : r i <;> simp [pcAfter, hr] at this
      · simp
    simpa using this

/-- Under a fair schedule every worker has returned, so `wg.Wait()` returns. -/
theorem fair_allDone (r : Nat → Fetched) (n : Nat) (sched : List Nat) (h : Fair n sched) :
    (runWorkers (fun i => Call.returns (r i)) n sched).allDone = true := by
  rw [runWorkers_eq, allDone_stateAt]
  intro i hi
  exact pcAfter_done_of_three _ _ (h i hi)

theorem fair_roundRobin (n : Nat) : Fair n (roundRobin n) := by
  intro i hi
  have h1 : (List.range n).count i = 1 :=
    List.count_eq_one_of_mem (List.nodup_range n) (List.mem_range.mpr hi)
  simp [roundRobin, List.count_append, h1]

/-- Every schedule can be continued to one after which `wg.Wait()` returns. -/
theorem exists_joined (r : Nat → Fetched) (n : Nat) (sched : List Nat) :
    (runWorkers (fun i => Call.returns (r i)) n (sched ++ roundRobin n)).allDone = true := by
  apply fair_allDone
  intro i hi
  have := fair_roundRobin n i hi
  rw [List.count_append]
  omega

theorem buildResult_joined (t : Target) (r : Nat → Fetched) (n : Nat) (sched : List Nat)
    (h : (runWorkers (fun i => Call.returns (r i)) n sched).allDone = true) :
    buildResult t (fun i => Call.returns (r i)) n sched
      = finalResult t ((List.range n).map (fun i => seqSlot (r i)))
          ((List.range n).map (fun i => sdSlot (r i))) := by
  unfold buildResult
  rw [joined_state r n sched h]

theorem step_pcs_length (f : Nat → Call Fetched) (sh : Shared) (j : Nat) :
    (step f sh j).pcs.length = sh.pcs.length := by
  unfold step
  split
  · rfl
  · split
    · rfl
    · split <;> simp
    · simp
    · simp
    · rfl

theorem step_congr (f g : Nat → Call Fetched) (n : Nat) (h : ∀ i, i < n → f i = g i)
    (sh : Shared) (hlen : sh.pcs.length = n) (j : Nat) : step f sh j = step g sh j := by
  unfold step
  by_cases hj : j < n
  · rw [h j hj]
  · have hnone : sh.pcs[j]? = none := List.getElem?_eq_none (by omega)
    simp only [hnone]

theorem foldl_step_congr (f g : Nat → Call Fetched) (n : Nat) (h : ∀ i, i < n → f i = g i)
    (sched : List Nat) (sh : Shared) (hlen : sh.pcs.length = n) :
    sched.foldl (step f) sh = sched.foldl (step g) sh := by
  induction sched generalizing sh with
  | nil => rfl
  | cons j rest ih =>
    rw [List.foldl_cons, List.foldl_cons, step_congr f g n h sh hlen j]
    exact ih _ (by rw [step_pcs_length]; exact hlen)

/-- The fan-out only consults the fetches of the workers `0 .. n-1`. -/
theorem runWorkers_congr (f g : Nat → Call Fetched) (n : Nat) (h : ∀ i, i < n → f i = g i)
    (sched : List Nat) : runWorkers f n sched = runWorkers g n sched := by
  unfold runWorkers
  exact foldl_step_congr f g n h sched _ (by simp [Shared.init])

theorem allDone_of_failed (f : Nat → Call Fetched) (n : Nat) (sched : List Nat)
    (hfail : ∀ i, i < n → ∃ msg, f i = Call.returns (Except.error msg))
    (hsched : ∀ i, i < n → i ∈ sched) :
    (runWorkers f n sched).allDone = true := by
  have hr : ∀ i, i < n → f i = Call.returns (fetchedOf (f i)) := by
    intro i hi
    obtain ⟨msg, h⟩ := hfail i hi
    rw [h]; rfl
  rw [runWorkers_congr f (fun i => Call.returns (fetchedOf (f i))) n hr sched, runWorkers_eq,
    allDone_stateAt]
  intro i hi
  obtain ⟨msg, h⟩ := hfail i hi
  have hpos : 0 < sched.count i := List.count_pos_iff.mpr (hsched i hi)
  obtain ⟨k, hk⟩ : ∃ k, sched.count i = k + 1 := ⟨sched.count i - 1, by omega⟩
  rw [h, hk]
  rfl

/-- When no fetch of the workers `0 .. n-1` panics and the schedule is fair, lines
167-215 respond, after exactly `n` calls of the fetcher, with the JSON result or, when
the result holds a NaN, with the encoder's error. -/
theorem aggregate_joined (t : Target) (f : Nat → Call Fetched) (r : Nat → Fetched) (n : Nat)
    (sched : List Nat) (hr : ∀ i, i < n → f i = Call.returns (r i))
    (hjoin : (runWorkers f n sched).allDone = true) :
    aggregate t f n sched =
      if encodes (finalResult t ((List.range n).map (fun i => seqSlot (r i)))
          ((List.range n).map (fun i => sdSlot (r i))))
      then Outcome.responds (Response.json
        (finalResult t ((List.range n).map (fun i => seqSlot (r i)))
          ((List.range n).map (fun i => sdSlot (r i))))) n
      else Outcome.responds (Response.httpError "json: unsupported value: NaN" 500) n := by
  have hc := runWorkers_congr f (fun i => Call.returns (r i)) n hr sched
  rw [hc] at hjoin
  have hs := joined_state r n sched hjoin
  unfold aggregate buildResult
  simp only [hc, hs, Shared.allDone, List.all_replicate]
  simp

/-! ## The handler -/

theorem validateParam_none (paramName : String) (v maxVal : Int) (h1 : 1 ≤ v) (h2 : v ≤ maxVal) :
    validateParam paramName v maxVal = none := by
  unfold validateParam
  rw [if_neg (by omega), if_neg (by omega)]

theorem validateParam_some (paramName : String) (v maxVal : Int) (h : v < 1 ∨ maxVal < v) :
    ∃ msg, validateParam paramName v maxVal = some msg := by
  unfold validateParam
  by_cases h0 : v ≤ 0
  · exact ⟨_, if_pos h0⟩
  · rw [if_neg h0, if_pos (by omega)]
    exact ⟨_, rfl⟩

/-- With both parameters in range `Get` is the fan-out and aggregation of lines
167-215. -/
theorem Get_valid (t : Target) (requests length : String) (upstream : Nat → Upstream)
    (sched : List Nat) (n L : Int) (hn : Atoi (orDefault requests) = some n)
    (hL : Atoi (orDefault length) = some L) (h1 : 1 ≤ n) (h2 : n ≤ 10) (h3 : 1 ≤ L)
    (h4 : L ≤ 1000) :
    Get t requests length upstream sched
      = aggregate t (fun i => requestRandomInts L (upstream i)) n.toNat sched := by
  unfold Get
  simp only [hn, hL, validateParam_none _ n 10 h1 h2, validateParam_none _ L 1000 h3 h4]

/-- What `requestRandomInts` returns for a tame upstream answer: an error, or a
non-empty sequence. -/
theorem requestRandomInts_tame (L : Int) (up : Upstream) (h : up.tame) :
    ∃ r : Fetched, requestRandomInts L up = Call.returns r ∧
      (sdSlot r).isNaN = false := by
  rcases up with msg | msg | ⟨res, err, id⟩
  · exact ⟨Except.error msg, rfl, rfl⟩
  · exact ⟨Except.error msg, rfl, rfl⟩
  · rcases err with _ | err
    · rcases res with _ | res
      · exact absurd h (by simp [Upstream.tame])
      · exact ⟨Except.ok res.Random.Data, rfl, roundedStdDev_isNaN _ h⟩
    · exact ⟨Except.error err.Message, rfl, rfl⟩

/-- The job does not fail on tame upstream answers: with valid parameters and a fair
schedule, if no upstream body lacks both `result` and `error` and no result has empty
`data`, `Get` writes the JSON result after exactly `requests` calls of the fetcher. -/
theorem Get_tame (t : Target) (requests length : String) (n L : Int)
    (upstream : Nat → Upstream) (sched : List Nat)
    (hn : Atoi (orDefault requests) = some n) (hL : Atoi (orDefault length) = some L)
    (h1 : 1 ≤ n) (h2 : n ≤ 10) (h3 : 1 ≤ L) (h4 : L ≤ 1000)
    (htame : ∀ i, i < n.toNat → (upstream i).tame) (hfair : Fair n.toNat sched) :
    ∃ body, Get t requests length upstream sched
      = Outcome.responds (Response.json body) n.toNat := by
  rw [Get_valid t requests length upstream sched n L hn hL h1 h2 h3 h4]
  have hr : ∀ i, i < n.toNat → requestRandomInts L (upstream i)
      = Call.returns (fetchedOf (requestRandomInts L (upstream i))) := by
    intro i hi
    obtain ⟨r, hr, _⟩ := requestRandomInts_tame L (upstream i) (htame i hi)
    rw [hr]; rfl
  have hjoin : (runWorkers (fun i => requestRandomInts L (upstream i)) n.toNat
      sched).allDone = true := by
    rw [runWorkers_congr _ _ n.toNat hr sched]
    exact fair_allDone _ _ _ hfair
  rw [aggregate_joined t _ _ n.toNat sched hr hjoin]
  refine ⟨_, if_pos ?_⟩
  unfold encodes finalResult
  simp only [Bool.and_eq_true, List.all_eq_true, Bool.not_eq_true']
  constructor
  · intro x hx
    obtain ⟨i, hi, rfl⟩ := List.mem_map.mp hx
    obtain ⟨r, hr, hsd⟩ := requestRandomInts_tame L (upstream i)
      (htame i (List.mem_range.mp hi))
    rw [hr]
    exact hsd
  · rw [StandardDeviation_eq]
    apply Round_isNaN
    apply stdDevDivN_isNaN
    · have : 0 < n.toNat := by omega
      intro hcon
      have hlen := congrArg List.length hcon
      simp [stats.LoadRawData, intSeqsSums] at hlen
      omega
    · intro x hx
      obtain ⟨z, _, rfl⟩ := List.mem_map.mp hx
      exact F64.ofInt_isNaN z

/-! ## The claims -/

/-- Claim C1. Whatever the number of requests, the outcomes of the fetches (each returns
a sequence or an error) and the schedule, the result built by `Get` has exactly
`nrOfRequests` entries in `Numbers` and in `StdDevs`. -/
theorem C1_result_lengths (t : Target) (nrOfRequests : Nat) (r : Nat → Fetched)
    (sched : List Nat) :
    (buildResult t (fun i => Call.returns (r i)) nrOfRequests sched).Numbers.length
        = nrOfRequests ∧
    (buildResult t (fun i => Call.returns (r i)) nrOfRequests sched).StdDevs.length
        = nrOfRequests := by
  unfold buildResult
  rw [runWorkers_eq]
  simp [finalResult, stateAt]

/-- Claim C2. If the fetch launched at index `i` returns the sequence `s`, then after the
join `Numbers[i]` is `s`, whatever the other fetches return and in whatever order the
workers ran. -/
theorem C2_index_alignment (t : Target) (nrOfRequests : Nat) (r : Nat → Fetched)
    (sched : List Nat) (i : Nat) (s : List Int) (hi : i < nrOfRequests)
    (hs : r i = Except.ok s)
    (hjoin : (runWorkers (fun i => Call.returns (r i)) nrOfRequests sched).allDone = true) :
    (buildResult t (fun i => Call.returns (r i)) nrOfRequests sched).Numbers[i]? = some s := by
  rw [buildResult_joined t r nrOfRequests sched hjoin]
  simp [finalResult, hi, hs, seqSlot]

/-- Witness for C2: two workers, interleaved, both fetches succeed. -/
theorem C2_index_alignment_witness :
    (0 < 2 ∧ (fun i => if i = 0 then Except.ok [1, 2, 3] else Except.ok [4, 5, 6] : Nat → Fetched) 0
        = Except.ok [1, 2, 3]) ∧
    (buildResult amd64
        (fun i => Call.returns (if i = 0 then Except.ok [1, 2, 3] else Except.ok [4, 5, 6]))
        2 [1, 0, 1, 0, 0, 1]).Numbers[0]? = some [1, 2, 3] :=
  ⟨⟨by decide, rfl⟩,
   C2_index_alignment amd64 2 (fun i => if i = 0 then Except.ok [1, 2, 3] else Except.ok [4, 5, 6])
     [1, 0, 1, 0, 0, 1] 0 [1, 2, 3] (by decide) rfl (by decide)⟩

/-- Claim C3. If the fetch at index `i` fails, then after the join `Numbers[i]` is empty
and `StdDevs[i]` is `0`; and every other index `j` holds what it holds in any run where
only the outcome of fetch `i` differs (in particular where fetch `i` succeeds),
whatever the two schedules. -/
theorem C3_failed_fetch_slot (t : Target) (nrOfRequests : Nat) (r : Nat → Fetched)
    (sched : List Nat) (i : Nat) (msg : String) (hi : i < nrOfRequests)
    (hfail : r i = Except.error msg)
    (hjoin : (runWorkers (fun i => Call.returns (r i)) nrOfRequests sched).allDone = true) :
    (buildResult t (fun i => Call.returns (r i)) nrOfRequests sched).Numbers[i]? = some [] ∧
    (buildResult t (fun i => Call.returns (r i)) nrOfRequests sched).StdDevs[i]?
        = some F64.zero ∧
    ∀ (r2 : Nat → Fetched) (sched2 : List Nat),
      (∀ j, j ≠ i → r2 j = r j) →
      (runWorkers (fun i => Call.returns (r2 i)) nrOfRequests sched2).allDone = true →
      ∀ j, j ≠ i →
        (buildResult t (fun i => Call.returns (r2 i)) nrOfRequests sched2).Numbers[j]?
          = (buildResult t (fun i => Call.returns (r i)) nrOfRequests sched).Numbers[j]? ∧
        (buildResult t (fun i => Call.returns (r2 i)) nrOfRequests sched2).StdDevs[j]?
          = (buildResult t (fun i => Call.returns (r i)) nrOfRequests sched).StdDevs[j]? := by
  rw [buildResult_joined t r nrOfRequests sched hjoin]
  refine ⟨by simp [finalResult, hi, hfail, seqSlot], by simp [finalResult, hi, hfail, sdSlot], ?_⟩
  intro r2 sched2 hsame hjoin2 j hj
  rw [buildResult_joined t r2 nrOfRequests sched2 hjoin2]
  by_cases hjn : j < nrOfRequests
  · simp [finalResult, hjn, hsame j hj]
  · have hr : (List.range nrOfRequests)[j]? = none :=
      List.getElem?_eq_none (by simpa using hjn)
    simp [finalResult, hr]

/-- Witness for C3: fetch 0 fails, fetch 1 returns `[4, 5, 6]`. -/
theorem C3_failed_fetch_slot_witness :
    (buildResult amd64
        (fun i => Call.returns (if i = 0 then Except.error "timeout" else Except.ok [4, 5, 6]))
        2 [1, 0, 1, 1]).Numbers[0]? = some [] ∧
    (buildResult amd64
        (fun i => Call.returns (if i = 0 then Except.error "timeout" else Except.ok [4, 5, 6]))
        2 [1, 0, 1, 1]).StdDevs[0]? = some F64.zero :=
  have h := C3_failed_fetch_slot amd64 2
    (fun i => if i = 0 then Except.error "timeout" else Except.ok [4, 5, 6])
    [1, 0, 1, 1] 0 "timeout" (by decide) rfl (by decide)
  ⟨h.1, h.2.1⟩

/-- Claim C4. `Get` answers with an error response, without a single call of the fetcher,
whenever `requests` is not an integer or is an integer outside `[1, 10]`, or `length`
is not an integer or is an integer outside `[1, 1000]` (an empty parameter reads as
`"1"`); and whenever both are integers in range it passes validation and goes on to
the fan-out of lines 167-215. -/
theorem C4_validation (t : Target) (requests length : String) (upstream : Nat → Upstream)
    (sched : List Nat) :
    (refused requests 10 = true ∨ refused length 1000 = true →
      ∃ msg, Get t requests length upstream sched
        = Outcome.responds (Response.httpError msg 500) 0) ∧
    (∀ n L : Int, Atoi (orDefault requests) = some n → Atoi (orDefault length) = some L →
      1 ≤ n → n ≤ 10 → 1 ≤ L → L ≤ 1000 →
      Get t requests length upstream sched
        = aggregate t (fun i => requestRandomInts L (upstream i)) n.toNat sched) := by
  refine ⟨?_, fun n L hn hL h1 h2 h3 h4 =>
    Get_valid t requests length upstream sched n L hn hL h1 h2 h3 h4⟩
  intro h
  unfold refused at h
  unfold Get
  rcases hn : Atoi (orDefault requests) with _ | n
  · simp only [hn]
    exact ⟨_, rfl⟩
  · rw [hn] at h
    simp only [decide_eq_true_eq] at h
    by_cases hbad : n < 1 ∨ 10 < n
    · obtain ⟨msg, hmsg⟩ := validateParam_some "nrOfRequests" n 10 hbad
      simp only [hn, hmsg]
      exact ⟨_, rfl⟩
    · have hok := validateParam_none "nrOfRequests" n 10 (by omega) (by omega)
      simp only [hn, hok]
      rcases hL : Atoi (orDefault length) with _ | L
      · simp only [hL]
        exact ⟨_, rfl⟩
      · rw [hL] at h
        simp only [decide_eq_true_eq] at h
        simp only [hL]
        have hbadL : L < 1 ∨ 1000 < L := by
          rcases h with h | h
          · exact absurd h hbad
          · exact h
        obtain ⟨msg, hmsg⟩ := validateParam_some "intSeqLength" L 1000 hbadL
        simp only [hmsg]
        exact ⟨_, rfl⟩

/-- Witness for C4: the boundary values `requests=0`, `requests=11`, `length=0`,
`length=1001` and a non-numeric value are refused with no fetch, and `requests=10`,
`length=1000` passes. -/
theorem C4_validation_witness :
    (refused "0" 10 = true ∧ refused "11" 10 = true ∧ refused "0" 1000 = true ∧
      refused "1001" 1000 = true ∧ refused "abc" 10 = true) ∧
    (∃ msg, Get amd64 "0" "5" (fun _ => Upstream.transportError "down") []
      = Outcome.responds (Response.httpError msg 500) 0) ∧
    (∃ msg, Get amd64 "11" "5" (fun _ => Upstream.transportError "down") []
      = Outcome.responds (Response.httpError msg 500) 0) ∧
    (∃ msg, Get amd64 "5" "0" (fun _ => Upstream.transportError "down") []
      = Outcome.responds (Response.httpError msg 500) 0) ∧
    (∃ msg, Get amd64 "5" "1001" (fun _ => Upstream.transportError "down") []
      = Outcome.responds (Response.httpError msg 500) 0) ∧
    (∃ msg, Get amd64 "abc" "5" (fun _ => Upstream.transportError "down") []
      = Outcome.responds (Response.httpError msg 500) 0) ∧
    Get amd64 "10" "1000" (fun _ => Upstream.transportError "down") []
      = aggregate amd64 (fun _ => requestRandomInts 1000 (Upstream.transportError "down")) 10 [] :=
  ⟨⟨by decide, by decide, by decide, by decide, by decide⟩,
   (C4_validation amd64 "0" "5" _ []).1 (Or.inl (by decide)),
   (C4_validation amd64 "11" "5" _ []).1 (Or.inl (by decide)),
   (C4_validation amd64 "5" "0" _ []).1 (Or.inr (by decide)),
   (C4_validation amd64 "5" "1001" _ []).1 (Or.inr (by decide)),
   (C4_validation amd64 "abc" "5" _ []).1 (Or.inl (by decide)),
   (C4_validation amd64 "10" "1000" _ []).2 10 1000 (by decide) (by decide) (by decide)
     (by decide) (by decide) (by decide)⟩

set_option maxRecDepth 100000 in
/-- Claim C6 (counterexample). Two requests whose fetches return `[2^53 + 1, 1]` and
`[0]`.  The integer sums are `[2^53 + 2, 0]`, with standard deviation `2^52 + 1`, but
the sums the handler computes in binary64 are `[2^53, 0]` and `StdDevOfStdDevs` is
`2^52`.  Also with exact sums the value can miss the exactly rounded one: the three
sequences `[10^15]`, `[10^15 + 1]`, `[10^15 + 3]` give `1.248` where the exact
standard deviation rounds to `1.247`. -/
theorem C6_counterexample :
    intSeqsSums amd64 [[9007199254740993, 1], [0]] = [9007199254740992, 0] ∧
    (buildResult amd64 (fun i => Call.returns (Except.ok
        (if i = 0 then [9007199254740993, 1] else [0]))) 2 [0, 1, 0, 1, 0, 1]).StdDevOfStdDevs
      = F64.ofInt 4503599627370496 ∧
    ExactStdDev3 ([[9007199254740993, 1], [0]].map List.sum) 4503599627370497000 ∧
    (¬ ∃ k : Nat,
      ExactStdDev3 ([[9007199254740993, 1], [0]].map List.sum) k ∧
      (buildResult amd64 (fun i => Call.returns (Except.ok
        (if i = 0 then [9007199254740993, 1] else [0]))) 2 [0, 1, 0, 1, 0, 1]).StdDevOfStdDevs
        = F64.ofQuot (k : Int) 1000) ∧
    (buildResult amd64 (fun i => Call.returns (Except.ok
        [1000000000000000 + (if i = 0 then 0 else if i = 1 then 1 else 3)])) 3
        [0, 1, 2, 0, 1, 2, 0, 1, 2]).StdDevOfStdDevs = F64.ofQuot 1248 1000 ∧
    ExactStdDev3 ([[1000000000000000], [1000000000000001], [1000000000000003]].map List.sum)
      1247 ∧
    F64.ofQuot 1248 1000 ≠ F64.ofQuot 1247 1000 := by
  have h1 : (buildResult amd64 (fun i => Call.returns (Except.ok
        (if i = 0 then [9007199254740993, 1] else [0]))) 2 [0, 1, 0, 1, 0, 1]).StdDevOfStdDevs
      = F64.ofInt 4503599627370496 := by decide
  have h2 : ExactStdDev3 ([[9007199254740993, 1], [0]].map List.sum)
      4503599627370497000 := by
    norm_num [ExactStdDev3, exactVariance, exactMean]
  refine ⟨by decide, h1, h2, ?_, by decide,
    by norm_num [ExactStdDev3, exactVariance, exactMean], by decide⟩
  rintro ⟨k, hk, he⟩
  have hk2 := ExactStdDev3_unique _ _ _ hk h2
  subst hk2
  rw [h1] at he
  exact absurd he (by decide)

set_option maxRecDepth 100000 in
/-- Claim C6 (amended). When there is at least one request and every fetch returns a
non-empty sequence whose absolute values add up to less than `2 ^ 53`, then after the
join `StdDevOfStdDevs` is the binary64 number nearest to `k / 1000`, where the integer
`k` is the binary64 product `d * 1000` rounded to the nearest integer (a half away from
zero, the rule of the per-sequence values) and `d` is the standard deviation with
divisor `N`, evaluated in binary64 arithmetic, of the list of the integer sums of the
sequences, one per request.  For the sequences `[[1, 2, 3], [4, 5, 6]]` the sums are
`[6, 15]` and the value is `4.5` (`4500 / 1000`), the exact standard deviation of the
sums. -/
theorem C6_stddev_of_sums (t : Target) (nrOfRequests : Nat) (seqs : Nat → List Int)
    (sched : List Nat) (hpos : 0 < nrOfRequests)
    (hseq : ∀ i, i < nrOfRequests →
      seqs i ≠ [] ∧ ((seqs i).map Int.natAbs).sum < 2 ^ 53)
    (hjoin : (runWorkers (fun i => Call.returns (Except.ok (seqs i))) nrOfRequests
      sched).allDone = true) :
    (∃ k : Int,
      (buildResult t (fun i => Call.returns (Except.ok (seqs i))) nrOfRequests
        sched).StdDevOfStdDevs = F64.ofQuot k 1000 ∧
      RoundsTo (F64.toRat (F64.mul
        (stdDevDivN (((List.range nrOfRequests).map (fun i => (seqs i).sum)).map F64.ofInt))
        (F64.ofInt 1000))) k) ∧
    (nrOfRequests = 2 → seqs 0 = [1, 2, 3] → seqs 1 = [4, 5, 6] →
      (List.range nrOfRequests).map (fun i => (seqs i).sum) = [6, 15] ∧
      (buildResult t (fun i => Call.returns (Except.ok (seqs i))) nrOfRequests
        sched).StdDevOfStdDevs = F64.ofQuot 4500 1000) ∧
    ExactStdDev3 [6, 15] 4500 := by
  have hval : (buildResult t (fun i => Call.returns (Except.ok (seqs i))) nrOfRequests
        sched).StdDevOfStdDevs
      = (stats.Round (stdDevDivN
          (((List.range nrOfRequests).map (fun i => (seqs i).sum)).map F64.ofInt)) 3).1 := by
    rw [buildResult_joined t (fun i => Except.ok (seqs i)) nrOfRequests sched hjoin]
    have hsl : (List.range nrOfRequests).map (fun i => seqSlot (Except.ok (seqs i)))
        = (List.range nrOfRequests).map seqs := rfl
    rw [hsl]
    unfold finalResult
    simp only [intSeqsSums_exact t nrOfRequests seqs hseq, StandardDeviation_eq,
      stats.LoadRawData]
  refine ⟨?_, ?_, by norm_num [ExactStdDev3, exactVariance, exactMean]⟩
  · obtain ⟨k, hk, hr⟩ := Round_nearest _
      (stdDevDivN_nonNeg (((List.range nrOfRequests).map (fun i => (seqs i).sum)).map F64.ofInt)
        (by
          intro hnil
          have := congrArg List.length hnil
          simp at this
          omega)
        (ofInt_mem_isNaN _))
    exact ⟨k, hval.trans hk, hr⟩
  · intro h2 h0 h1
    subst h2
    have hsums : (List.range 2).map (fun i => (seqs i).sum) = [6, 15] := by
      show [(seqs 0).sum, (seqs 1).sum] = [6, 15]
      rw [h0, h1]
      rfl
    refine ⟨hsums, ?_⟩
    rw [hval, hsums]
    decide

set_option maxRecDepth 100000 in
/-- Witness for C6: the sequences `[[1, 2, 3], [4, 5, 6]]` give the sums `[6, 15]` and
the value `4.5`. -/
theorem C6_stddev_of_sums_witness :
    (List.range 2).map (fun i => (if i = 0 then [1, 2, 3] else [4, 5, 6] : List Int).sum)
      = [6, 15] ∧
    (buildResult amd64
        (fun i => Call.returns (Except.ok (if i = 0 then [1, 2, 3] else [4, 5, 6])))
        2 [0, 1, 0, 1, 0, 1]).StdDevOfStdDevs = F64.ofQuot 4500 1000 :=
  (C6_stddev_of_sums amd64 2 (fun i => if i = 0 then [1, 2, 3] else [4, 5, 6])
    [0, 1, 0, 1, 0, 1] (by decide)
    (fun i hi => by
      have hi2 : i = 0 ∨ i = 1 := by omega
      rcases hi2 with rfl | rfl <;> decide)
    (by decide)).2.1 rfl rfl rfl

set_option maxRecDepth 100000 in
/-- Claim C7 (code evaluated at the failing input). Two requests on amd64: fetch 0 fails
and fetch 1 returns `[4, 5, 6]`.  The sum entry of the failed index is not `0` but
`int(NaN) = -2 ^ 63`, and `StdDevOfStdDevs` is `2 ^ 62`, not the `7.5` that the sums
`[0, 15]` would give.  (On arm64, where `int(NaN) = 0`, the same run gives `7.5`.) -/
theorem C7_failed_fetch_sum_entry :
    intSeqsSums amd64
      (buildResult amd64
        (fun i => Call.returns (if i = 0 then Except.error "timeout" else Except.ok [4, 5, 6]))
        2 [0, 1, 1, 1]).Numbers = [-2 ^ 63, 15] ∧
    (buildResult amd64
        (fun i => Call.returns (if i = 0 then Except.error "timeout" else Except.ok [4, 5, 6]))
        2 [0, 1, 1, 1]).StdDevOfStdDevs = F64.ofInt (2 ^ 62) ∧
    F64.ofInt (2 ^ 62) ≠ F64.ofQuot 15 2 ∧
    (buildResult arm64
        (fun i => Call.returns (if i = 0 then Except.error "timeout" else Except.ok [4, 5, 6]))
        2 [0, 1, 1, 1]).StdDevOfStdDevs = F64.ofQuot 15 2 := by
  refine ⟨by decide, by decide, by decide, by decide⟩

/-- Claim C8 (code evaluated at the failing inputs). With valid parameters, an upstream
body that has neither a `result` nor an `error` member makes the worker dereference a
nil pointer: the run ends in a panic, not in a response.  And an upstream result whose
`data` is empty makes the per-sequence deviation NaN, which the JSON encoder refuses:
`Get` answers with the error response 500. -/
theorem C8_upstream_breaks_job (t : Target) :
    Get t "1" "1" (fun _ => Upstream.decoded ⟨none, none, 666⟩) [0] = Outcome.crashes ∧
    Get t "1" "1" (fun _ => Upstream.decoded ⟨some ⟨⟨[]⟩⟩, none, 666⟩) [0, 0, 0]
      = Outcome.responds (Response.httpError "json: unsupported value: NaN" 500) 1 := by
  constructor
  · rfl
  · rfl

/-- Claim C9 (counterexample). Asked for one integer, with an upstream result whose
`data` is empty, `requestRandomInts` returns neither an error nor a sequence of
length 1: it returns the empty sequence with a nil error. -/
theorem C9_counterexample :
    ¬ ((∃ msg, requestRandomInts 1 (Upstream.decoded ⟨some ⟨⟨[]⟩⟩, none, 666⟩)
          = Call.returns (Except.error msg)) ∨
       (∃ s : List Int, requestRandomInts 1 (Upstream.decoded ⟨some ⟨⟨[]⟩⟩, none, 666⟩)
          = Call.returns (Except.ok s) ∧ (s.length : Int) = 1)) := by
  simp [requestRandomInts]

/-- Claim C9 (amended). For every requested length and every upstream answer other than
a decoded body with neither `result` nor `error`, `requestRandomInts` returns either an
error, or exactly the sequence `result.random.data` of the upstream body, whatever its
length. -/
theorem C9_returns_upstream_data (intSeqLength : Int) (up : Upstream)
    (h : ∀ id, up ≠ Upstream.decoded ⟨none, none, id⟩) :
    (∃ msg, requestRandomInts intSeqLength up = Call.returns (Except.error msg)) ∨
    (∃ res id, up = Upstream.decoded ⟨some res, none, id⟩ ∧
      requestRandomInts intSeqLength up = Call.returns (Except.ok res.Random.Data)) := by
  rcases up with msg | msg | ⟨res, err, id⟩
  · exact Or.inl ⟨msg, rfl⟩
  · exact Or.inl ⟨msg, rfl⟩
  · rcases err with _ | err
    · rcases res with _ | res
      · exact absurd rfl (h id)
      · exact Or.inr ⟨res, id, rfl, rfl⟩
    · exact Or.inl ⟨err.Message, rfl⟩

/-- Witness for the amended C9: three integers were requested, upstream sent two. -/
theorem C9_returns_upstream_data_witness :
    (∀ id, Upstream.decoded ⟨some ⟨⟨[7, 7]⟩⟩, none, 666⟩ ≠ Upstream.decoded ⟨none, none, id⟩) ∧
    ((∃ msg, requestRandomInts 3 (Upstream.decoded ⟨some ⟨⟨[7, 7]⟩⟩, none, 666⟩)
        = Call.returns (Except.error msg)) ∨
     (∃ res id, Upstream.decoded ⟨some ⟨⟨[7, 7]⟩⟩, none, 666⟩
          = Upstream.decoded ⟨some res, none, id⟩ ∧
        requestRandomInts 3 (Upstream.decoded ⟨some ⟨⟨[7, 7]⟩⟩, none, 666⟩)
          = Call.returns (Except.ok res.Random.Data))) :=
  ⟨fun _ h => by simp at h,
   C9_returns_upstream_data 3 (Upstream.decoded ⟨some ⟨⟨[7, 7]⟩⟩, none, 666⟩)
     (fun _ h => by simp at h)⟩

/-- Claim C10. With valid parameters, when every one of the `requests` fetches fails and
every worker gets to run, `Get` answers 200 with a result whose `Numbers` entries are
all empty, whose `StdDevs` entries are all `0` and whose `StdDevOfStdDevs` is `0`
(on every target where `int(NaN)` is `0`, `-2^63` or `2^63 - 1`: arm64, amd64, riscv64
and the like). -/
theorem C10_all_fetches_fail (t : Target) (requests length : String) (n L : Int)
    (upstream : Nat → Upstream) (sched : List Nat)
    (hn : Atoi (orDefault requests) = some n) (hL : Atoi (orDefault length) = some L)
    (h1 : 1 ≤ n) (h2 : n ≤ 10) (h3 : 1 ≤ L) (h4 : L ≤ 1000)
    (ht : t.ofNaN = 0 ∨ t.ofNaN = -2 ^ 63 ∨ t.ofNaN = 2 ^ 63 - 1)
    (hfail : ∀ i, i < n.toNat →
      ∃ msg, requestRandomInts L (upstream i) = Call.returns (Except.error msg))
    (hsched : ∀ i, i < n.toNat → i ∈ sched) :
    Get t requests length upstream sched
      = Outcome.responds
          (Response.json
            { Numbers := List.replicate n.toNat []
              StdDevs := List.replicate n.toNat F64.zero
              StdDevOfStdDevs := F64.zero })
          n.toNat := by
  rw [Get_valid t requests length upstream sched n L hn hL h1 h2 h3 h4]
  have hjoin := allDone_of_failed _ n.toNat sched hfail hsched
  have hr : ∀ i, i < n.toNat → requestRandomInts L (upstream i)
      = Call.returns (fetchedOf (requestRandomInts L (upstream i))) := by
    intro i hi
    obtain ⟨msg, h⟩ := hfail i hi
    rw [h]; rfl
  rw [aggregate_joined t _ (fun i => fetchedOf (requestRandomInts L (upstream i))) n.toNat
    sched hr hjoin]
  have hseq : (List.range n.toNat).map
      (fun i => seqSlot (fetchedOf (requestRandomInts L (upstream i))))
      = List.replicate n.toNat [] := by
    rw [← map_range_const]
    apply map_range_congr
    intro i hi
    obtain ⟨msg, h⟩ := hfail i hi
    rw [h]; rfl
  have hsd : (List.range n.toNat).map
      (fun i => sdSlot (fetchedOf (requestRandomInts L (upstream i))))
      = List.replicate n.toNat F64.zero := by
    rw [← map_range_const]
    apply map_range_congr
    intro i hi
    obtain ⟨msg, h⟩ := hfail i hi
    rw [h]; rfl
  have hfin : finalResult t (List.replicate n.toNat []) (List.replicate n.toNat F64.zero)
      = { Numbers := List.replicate n.toNat []
          StdDevs := List.replicate n.toNat F64.zero
          StdDevOfStdDevs := F64.zero } := by
    unfold finalResult intSeqsSums
    simp only [List.map_replicate, sum_entry_of_empty]
    rw [stdDev_of_equal_sums t.ofNaN n.toNat ht (by omega) (by omega)]
  rw [hseq, hsd, hfin]
  have henc : encodes { Numbers := List.replicate n.toNat []
                        StdDevs := List.replicate n.toNat F64.zero
                        StdDevOfStdDevs := F64.zero } = true := by
    simp [encodes, List.all_replicate, F64.isNaN, F64.zero]
  rw [if_pos henc]

/-- Witness for C10: three requests, all answered by an upstream error object, on
amd64, under the round-robin schedule. -/
theorem C10_all_fetches_fail_witness :
    Get amd64 "3" "5" (fun _ => Upstream.decoded ⟨none, some ⟨"quota exceeded"⟩, 666⟩)
        (roundRobin 3)
      = Outcome.responds
          (Response.json
            { Numbers := [[], [], []]
              StdDevs := [F64.zero, F64.zero, F64.zero]
              StdDevOfStdDevs := F64.zero })
          3 :=
  C10_all_fetches_fail amd64 "3" "5" 3 5
    (fun _ => Upstream.decoded ⟨none, some ⟨"quota exceeded"⟩, 666⟩) (roundRobin 3)
    (by decide) (by decide) (by decide) (by decide) (by decide) (by decide)
    (Or.inr (Or.inl (by decide))) (fun _ _ => ⟨"quota exceeded", rfl⟩) (by decide)

end RandomInts
